import Mathlib

/-!
Verification development for the parallel chunked document aggregation engine
(`docsprocessor.py` with the pluggable aggregation functions of
`doc_processor.py`).  Documents are modelled as lists of characters, Python
dictionaries as association lists (which preserve Python's insertion order),
Python sets as duplicate-free lists observed up to membership, and Python
exceptions as an explicit error type.  Integer arithmetic is exact, matching
Python's unbounded integers.
-/

deriving instance DecidableEq for Except

/-- A Python string, as used for record keys and words. -/
abbrev Key := List Char

/-- Python runtime errors that the engine's code paths can raise. -/
inductive PyError where
  | zeroDiv   -- ZeroDivisionError
  | typeErr   -- TypeError
  | attrErr   -- AttributeError
  | valueErr  -- ValueError
deriving DecidableEq, Repr

/-- The value shapes a ResultRecord may map a metric name to: an integer
counter, a set of strings, a string-to-integer frequency table, or a plain
list (the latter only appears through the final `unique_words` formatting
step, never as an aggregation-function output). -/
inductive RVal where
  | intV : Int → RVal
  | setV : List Key → RVal
  | dictV : List (Key × Int) → RVal
  | listV : List Key → RVal
deriving DecidableEq, Repr

/-- A ResultRecord: a Python dict from metric name to value, in insertion
order. -/
abbrev Record := List (Key × RVal)

/-- Lookup in an association list (Python `d[k]` / `k in d`), first match. -/
def rlookup {β : Type} (k : Key) : List (Key × β) → Option β
  | [] => none
  | p :: rest => if p.1 = k then some p.2 else rlookup k rest

/-- Rebind the first binding of `k` (Python `d[k] = v` on a present key). -/
def setFirst {β : Type} (k : Key) (v : β) : List (Key × β) → List (Key × β)
  | [] => []
  | p :: rest => if p.1 = k then (k, v) :: rest else p :: setFirst k v rest

/-- Boolean membership in a list of keys. -/
def elemKey (w : Key) : List Key → Bool
  | [] => false
  | x :: rest => if x = w then true else elemKey w rest

/-- Python `set.update`: the target set followed by the source elements not
already present (set contents are observed up to membership). -/
def setUnion (ts s : List Key) : List Key :=
  ts ++ s.filter (fun w => !(elemKey w ts))

/-- Python dict-into-dict merge of two frequency tables (lines 100-104 /
155-159 of `docsprocessor.py`): walk the source in order; insert absent
sub-keys, sum present ones. -/
def dictMerge (td : List (Key × Int)) (d : List (Key × Int)) : List (Key × Int) :=
  d.foldl (fun acc p =>
    match rlookup p.1 acc with
    | none => acc ++ [p]
    | some old => setFirst p.1 (old + p.2) acc) td

/-!
### Type-directed merge

`docsprocessor.py` contains the merge twice, with identical structure: once
inside `process_chunks` (lines 84-104, chunk records into the worker record)
and once inside `process_document_parallel` (lines 139-159, worker records
into the final aggregate).  Dispatch is on the *source* value's runtime type
(`isinstance`); a present key whose target value does not support the chosen
operation raises a Python error.  The inner `if key not in thread_results`
tests on lines 90/96 (and 145/151) are unreachable, since those branches are
only entered when the key is present; the embedding therefore keeps only
their `else` arms.
-/

/-- One step of the chunk-level merge (lines 84-104 of `docsprocessor.py`):
merge the source binding `k ↦ v` into the worker record `t`.  Returns the
updated record and the Python error raised, if any; an erroring step leaves
the record as it was at the moment the error was raised. -/
def mergeKVThread (t : Record) (k : Key) (v : RVal) : Record × Option PyError :=
  match rlookup k t with
  | none => (t ++ [(k, v)], none)                -- key absent: insert as-is
  | some tv =>
    match v with
    | .intV n =>                                 -- thread_results[key] += value
      match tv with
      | .intV m => (setFirst k (.intV (m + n)) t, none)
      | _ => (t, some .typeErr)                  -- set/dict/list += int: TypeError
    | .setV s =>                                 -- thread_results[key].update(value)
      match tv with
      | .setV ts => (setFirst k (.setV (setUnion ts s)) t, none)
      | .dictV _ =>
        -- dict.update(set of strings) iterates the strings as key/value
        -- pairs: it raises ValueError unless every element has length 2
        -- (which would insert character-valued entries, a shape outside the
        -- string→integer frequency tables this record type carries); an
        -- empty source set is a silent no-op.
        if s = [] then (t, none) else (t, some .valueErr)
      | _ => (t, some .attrErr)                  -- int/list has no .update
    | .dictV d =>                                -- per-subkey dict merge
      match tv with
      | .dictV td => (setFirst k (.dictV (dictMerge td d)) t, none)
      | _ =>
        -- iterating a non-empty source dict against an int target raises
        -- TypeError at the `subkey not in target` test; against a set or
        -- list target the subsequent item assignment raises TypeError.  An
        -- empty source dict performs no iteration: a silent no-op.
        if d = [] then (t, none) else (t, some .typeErr)
    | .listV _ => (t, none)                      -- matches no isinstance arm: ignored

/-- One step of the final worker-level merge (lines 139-159 of
`docsprocessor.py`): merge the source binding `k ↦ v` into the aggregate
`t`.  The code block is a verbatim duplicate of the chunk-level one. -/
def mergeKVFinal (t : Record) (k : Key) (v : RVal) : Record × Option PyError :=
  match rlookup k t with
  | none => (t ++ [(k, v)], none)
  | some tv =>
    match v with
    | .intV n =>
      match tv with
      | .intV m => (setFirst k (.intV (m + n)) t, none)
      | _ => (t, some .typeErr)
    | .setV s =>
      match tv with
      | .setV ts => (setFirst k (.setV (setUnion ts s)) t, none)
      | .dictV _ => if s = [] then (t, none) else (t, some .valueErr)
      | _ => (t, some .attrErr)
    | .dictV d =>
      match tv with
      | .dictV td => (setFirst k (.dictV (dictMerge td d)) t, none)
      | _ => if d = [] then (t, none) else (t, some .typeErr)
    | .listV _ => (t, none)

/-- Merge a whole source record into `t` at the chunk level: walk the source
items in insertion order, stopping at the first Python error but keeping the
partially merged record (the in-place mutations made before the error
persist). -/
def mergeItemsThread (t : Record) : List (Key × RVal) → Record × Option PyError
  | [] => (t, none)
  | (k, v) :: rest =>
    match mergeKVThread t k v with
    | (t1, none) => mergeItemsThread t1 rest
    | (t1, some e) => (t1, some e)

/-- Merge a whole source record into `t` at the final worker level. -/
def mergeItemsFinal (t : Record) : List (Key × RVal) → Record × Option PyError
  | [] => (t, none)
  | (k, v) :: rest =>
    match mergeKVFinal t k v with
    | (t1, none) => mergeItemsFinal t1 rest
    | (t1, some e) => (t1, some e)

/-- Fold the final merge over the workers' records (lines 136-159), stopping
at the first uncaught Python error. -/
def mergeFoldFinal (st : Record) : List Record → Record × Option PyError
  | [] => (st, none)
  | r :: rest =>
    match mergeItemsFinal st r with
    | (st1, none) => mergeFoldFinal st1 rest
    | (st1, some e) => (st1, some e)

/-- `process_chunks` (lines 70-109): run the aggregation function on each
chunk of this worker's batch and merge the outcome into the worker record.
The whole per-chunk body sits in a `try`/`except Exception` that logs and
continues, so both a failing aggregation-function call and a failing merge
leave the loop running; a failing merge keeps whatever had been merged
before the error was raised. -/
def processChunks (chunks : List (List Char)) (f : List Char → Except PyError Record) : Record :=
  chunks.foldl (fun st c =>
    match f c with
    | .error _ => st
    | .ok r => (mergeItemsThread st r).1) []

/-!
### Chunker and work distribution (`split_document_for_threads`, lines 26-68)

The function first reads the file through `mmap.mmap(file.fileno(), 0,
ACCESS_READ)` (lines 36-38) and then works on the decoded text.  The read
itself has an error path: on an *empty* file mmap raises `ValueError:
cannot mmap an empty file`, and the handler on line 66 catches only
`IOError`, so that ValueError propagates out of the split and out of the
whole run.  The embedding models the read step (`readDocumentText`, the
file's contents given as the decoded text it holds) separately from the
splitting logic on the decoded text (`splitDocumentForThreads`, faithful
for every non-empty document); `splitDocumentFile` composes the two as the
source does.  Python's floor division on the non-negative quantities
involved is `Nat` division, except that a zero divisor raises
`ZeroDivisionError`, which the embedding surfaces as an explicit error.
-/

/-- `total_chunks = (len(text) + self.chunk_size - 1) // self.chunk_size`
(line 41), for a non-zero chunk size. -/
def totalChunks (len cs : Nat) : Nat := (len + cs - 1) / cs

/-- The i-th fixed-stride window `text[start:end]` with `start = i * cs` and
`end = min((i + 1) * cs, len(text))` (lines 52-54): the chunk's *original
span* before word-boundary trimming. -/
def window (text : List Char) (cs i : Nat) : List Char :=
  (text.drop (i * cs)).take cs

/-- Python `chunk.rfind(' ')` (line 58): the index of the last space
character, if any. -/
def rfindSpace : List Char → Option Nat
  | [] => none
  | c :: rest =>
    match rfindSpace rest with
    | some j => some (j + 1)
    | none => if c = ' ' then some 0 else none

/-- The chunk produced for stride index `i` (lines 52-60): the window,
trimmed to just before its last space when the window's end falls strictly
before the text's end and a space exists; kept untrimmed otherwise. -/
def mkChunk (text : List Char) (cs i : Nat) : List Char :=
  let chunk := window text cs i
  if (i + 1) * cs < text.length then
    match rfindSpace chunk with
    | some j => chunk.take j
    | none => chunk
  else chunk

/-- `thread_chunks[thread_index].append(chunk)` (line 62): append to the
bucket at the given index. -/
def appendAt {α : Type} : List (List α) → Nat → α → List (List α)
  | [], _, _ => []
  | b :: bs, 0, x => (b ++ [x]) :: bs
  | b :: bs, n + 1, x => b :: appendAt bs n x

/-- `split_document_for_threads` (lines 26-64) on the decoded text: compute
the chunk count, the chunks-per-thread quota, and distribute the trimmed
chunks into per-thread buckets.  `chunk_size = 0` makes line 41 divide by
zero; `num_threads = 0` makes line 42 divide by zero; and when the chunk
count is positive but smaller than `num_threads` the quota
`chunks_per_thread` is `0`, so the per-chunk index computation
`i // chunks_per_thread` (line 47) divides by zero. -/
def splitDocumentForThreads (text : List Char) (cs nt : Nat) :
    Except PyError (List (List (List Char))) :=
  if cs = 0 then .error .zeroDiv
  else
    let total := totalChunks text.length cs
    if nt = 0 then .error .zeroDiv
    else
      let cpt := total / nt
      if 0 < total ∧ cpt = 0 then .error .zeroDiv
      else
        .ok ((List.range total).foldl (fun bs i =>
          let ti := i / cpt
          let ti := if nt ≤ ti then nt - 1 else ti
          appendAt bs ti (mkChunk text cs i)) (List.replicate nt []))

/-- The mmap read of lines 36-38, for a readable file whose contents decode
to `text`: mmap refuses to map an empty file, raising `ValueError`, which
the `except IOError` handler on line 66 does not catch; a non-empty file
yields its decoded text.  (An unreadable file would raise an `IOError`
that line 68 re-raises; that path takes no part in any claim and is not
modelled.) -/
def readDocumentText (text : List Char) : Except PyError (List Char) :=
  if text = [] then .error .valueErr else .ok text

/-- `split_document_for_threads` (lines 26-68) as the program runs it: read
the file through mmap, then split the decoded text. -/
def splitDocumentFile (text : List Char) (cs nt : Nat) :
    Except PyError (List (List (List Char))) :=
  match readDocumentText text with
  | .error e => .error e
  | .ok t => splitDocumentForThreads t cs nt

/-!
### The orchestrator (`process_document_parallel`, lines 111-172)

Thread scheduling only affects wall-clock time here: each worker computes a
pure function of its own batch and the results are collected in submission
order (`futures` list order), so the embedding runs the workers as a `map`.
The `processing_time` field of the returned report is wall-clock time and is
not modelled.
-/

/-- The Python key string `'unique_words'`. -/
def kUniqueWords : Key := ("unique_words").toList

/-- Lines 164-166: if the merged results carry a `unique_words` set, convert
it to a list for display.  The order in which Python enumerates the set is
unspecified; the embedding keeps the stored order. -/
def formatUnique (r : Record) : Record :=
  match rlookup kUniqueWords r with
  | some (.setV s) => setFirst kUniqueWords (.listV s) r
  | _ => r

/-- The run report (lines 168-172): the per-worker records in worker-index
order and the merged aggregate.  `processing_time` is omitted (wall clock). -/
structure Report where
  threadResults : List Record
  mergedResults : Record
deriving DecidableEq, Repr

/-- `process_document_parallel` (lines 111-172) on the decoded text, i.e.
everything downstream of the mmap read: split, process each batch in a
worker, merge the worker records into the final aggregate (uncaught errors
propagate to the caller), format `unique_words`, and assemble the report.
`processDocumentFile` below includes the read step itself. -/
def processDocumentParallel (text : List Char) (cs nt : Nat)
    (f : List Char → Except PyError Record) : Except PyError Report :=
  match splitDocumentForThreads text cs nt with
  | .error e => .error e
  | .ok bs =>
    let thr := bs.map (fun chunks => processChunks chunks f)
    match mergeFoldFinal [] thr with
    | (_, some e) => .error e
    | (final, none) => .ok ⟨thr, formatUnique final⟩

/-- `process_document_parallel` as the program runs it, the mmap read
included: the read happens first (inside the split), and its errors — in
particular the ValueError on an empty file — propagate out of the run
uncaught.  On a non-empty document the read returns the text unchanged, so
this agrees with `processDocumentParallel` there. -/
def processDocumentFile (text : List Char) (cs nt : Nat)
    (f : List Char → Except PyError Record) : Except PyError Report :=
  match readDocumentText text with
  | .error e => .error e
  | .ok t => processDocumentParallel t cs nt f

/-!
### The word-count aggregation function (`doc_processor.py`, lines 8-14)
-/

/-- Python `str.isspace` on the ASCII whitespace characters produced by
`str.split()`'s delimiter set. -/
def pyIsSpace (c : Char) : Bool :=
  c = ' ' || c = '\t' || c = '\n' || c = '\x0d' || c = '\x0b' || c = '\x0c'

/-- `text.lower().replace(',', '').replace('.', '')`. -/
def stripPunct (l : List Char) : List Char :=
  (l.map Char.toLower).filter (fun c => !(c = ',' || c = '.'))

/-- Helper for `pyWords`: accumulate the current word (reversed) while
scanning. -/
def pyWordsAux (acc : List Char) : List Char → List (List Char)
  | [] => if acc = [] then [] else [acc.reverse]
  | c :: rest =>
    if pyIsSpace c then
      if acc = [] then pyWordsAux [] rest else acc.reverse :: pyWordsAux [] rest
    else pyWordsAux (c :: acc) rest

/-- Python `str.split()` with no separator: split on whitespace runs,
discarding empty fields. -/
def pyWords (l : List Char) : List (List Char) := pyWordsAux [] l

/-- `word_count_processor` (lines 8-14 of `doc_processor.py`): the word
count and the per-word frequency table.  Python builds the table by
iterating `set(words)`, whose order is unspecified; the embedding iterates
the words in first-occurrence order. -/
def wordCountProcessor (text : List Char) : Except PyError Record :=
  let ws := pyWords (stripPunct text)
  .ok [ (("total_words").toList, .intV (ws.length : Int)),
        (("word_frequencies").toList,
          .dictV (ws.dedup.map (fun w => (w, (ws.count w : Int))))) ]

/-!
## Chunk-count and span lemmas
-/

/-- An empty document yields a zero chunk count. -/
theorem totalChunks_nil (cs : Nat) (h : 0 < cs) : totalChunks 0 cs = 0 := by
  unfold totalChunks
  exact Nat.div_eq_of_lt (by omega)

/-- Peeling one stride off a non-empty document. -/
theorem totalChunks_succ (n cs : Nat) (hcs : 0 < cs) (hn : 0 < n) :
    totalChunks n cs = totalChunks (n - cs) cs + 1 := by
  unfold totalChunks
  rcases Nat.le_total cs n with hle | hlt
  · have h1 : n + cs - 1 = (n - 1) + cs := by omega
    have h2 : n - cs + cs - 1 = n - 1 := by omega
    rw [h1, h2, Nat.add_div_right _ hcs]
  · have h1 : n - cs = 0 := by omega
    have h2 : n + cs - 1 = (n - 1) + cs := by omega
    rw [h1, h2, Nat.add_div_right _ hcs]
    have h3 : (n - 1) / cs = 0 := Nat.div_eq_of_lt (by omega)
    have h4 : (0 + cs - 1) / cs = 0 := Nat.div_eq_of_lt (by omega)
    rw [h3, h4]

/-- Shifting a window by one stride is taking the window of the dropped
document. -/
theorem window_succ (D : List Char) (S i : Nat) :
    window D S (i + 1) = window (D.drop S) S i := by
  unfold window
  rw [List.drop_drop]
  have : S + i * S = (i + 1) * S := by ring
  rw [this]

/-- Auxiliary induction for span reconstruction, on a length bound. -/
theorem spans_reconstruct_aux (n : Nat) :
    ∀ D : List Char, ∀ S : Nat, 0 < S → D.length ≤ n →
      (List.range (totalChunks D.length S)).flatMap (fun i => window D S i) = D := by
  induction n with
  | zero =>
    intro D S hS hlen
    have hD : D = [] := List.eq_nil_of_length_eq_zero (by omega)
    subst hD
    simp [totalChunks_nil _ hS]
  | succ n ih =>
    intro D S hS hlen
    by_cases hD : D = []
    · subst hD
      simp [totalChunks_nil _ hS]
    · have hpos : 0 < D.length := List.length_pos.mpr hD
      rw [totalChunks_succ _ _ hS hpos, List.range_succ_eq_map, List.flatMap_cons,
        List.flatMap_map]
      have hw0 : window D S 0 = D.take S := by
        unfold window
        simp
      have hrest :
          (List.range (totalChunks (D.length - S) S)).flatMap
              (fun i => window D S (i + 1)) =
            (List.range (totalChunks (D.length - S) S)).flatMap
              (fun i => window (D.drop S) S i) := by
        apply List.flatMap_congr
        intro i _
        exact window_succ D S i
      have hlen2 : (D.drop S).length ≤ n := by
        rw [List.length_drop]
        omega
      have hlen3 : (D.drop S).length = D.length - S := List.length_drop ..
      rw [hw0]
      have := ih (D.drop S) S hS hlen2
      rw [hlen3] at this
      calc D.take S ++ (List.range (totalChunks (D.length - S) S)).flatMap
              (fun i => window D S (i + 1))
          = D.take S ++ (List.range (totalChunks (D.length - S) S)).flatMap
              (fun i => window (D.drop S) S i) := by rw [hrest]
        _ = D.take S ++ D.drop S := by rw [this]
        _ = D := List.take_append_drop ..

/-- C5: for every document `D` and every `maxChunkSize S > 0`, the original
pre-trimming spans underlying the chunk sequence — the i-th span running
from `i*S` to `min((i+1)*S, |D|)`, which is exactly `window D S i` — 
concatenate to reconstruct `D`; the trimming in `mkChunk` never moves the
recorded split points, which are fixed by the stride alone. -/
theorem spans_reconstruct_document (D : List Char) (S : Nat) (h : 0 < S) :
    (List.range (totalChunks D.length S)).flatMap (fun i => window D S i) = D :=
  spans_reconstruct_aux D.length D S h (Nat.le_refl _)

/-- Witness for C5 at a concrete document and stride. -/
theorem spans_reconstruct_document_witness :
    0 < 4 ∧
      (List.range (totalChunks (("ab  xyz").toList).length 4)).flatMap
          (fun i => window (("ab  xyz").toList) 4 i) = ("ab  xyz").toList :=
  ⟨by decide, spans_reconstruct_document (("ab  xyz").toList) 4 (by decide)⟩

/-- C3: the claim says distributing chunks across more workers than chunks
succeeds with empty batches for the excess workers.  The code instead
divides by zero: with one chunk and two workers, `chunks_per_thread = 1 // 2
= 0`, and line 47 computes `i // 0`, raising `ZeroDivisionError`.  This
theorem evaluates the splitter at that failing input. -/
theorem split_more_workers_than_chunks_raises :
    splitDocumentForThreads (("hello").toList) 10 2 = .error .zeroDiv := by decide

/-- C6: a chunk whose aggregation-function invocation raises contributes
nothing to the worker record: `process_chunks` over a batch containing the
failing chunk computes exactly the record of the batch with that chunk
removed.  The exception is caught inside the per-chunk `try`, so it never
escapes and the remaining chunks are processed; consequently every counter
in the result is the sum over the successful chunks only. -/
theorem failing_chunk_contributes_nothing (pre post : List (List Char))
    (c : List Char) (f : List Char → Except PyError Record) (e : PyError)
    (hfail : f c = .error e) :
    processChunks (pre ++ c :: post) f = processChunks (pre ++ post) f := by
  unfold processChunks
  rw [List.foldl_append, List.foldl_append, List.foldl_cons, hfail]

/-- Witness for C6: a two-chunk batch whose second chunk fails produces the
same record as the batch of the first chunk alone. -/
theorem failing_chunk_contributes_nothing_witness :
    (fun c => if c = ("bad").toList then (.error .typeErr : Except PyError Record)
              else wordCountProcessor c) (("bad").toList) = .error .typeErr ∧
      processChunks [("a b").toList, ("bad").toList]
          (fun c => if c = ("bad").toList then .error .typeErr
                    else wordCountProcessor c) =
        processChunks [("a b").toList]
          (fun c => if c = ("bad").toList then .error .typeErr
                    else wordCountProcessor c) :=
  ⟨by decide,
    failing_chunk_contributes_nothing [("a b").toList] [] (("bad").toList)
      (fun c => if c = ("bad").toList then .error .typeErr
                else wordCountProcessor c) .typeErr (by decide)⟩

/-- Splitting the empty document: zero chunks, so every worker's batch is
empty and no division by zero is reached. -/
theorem split_empty_document (cs nt : Nat) (hcs : 0 < cs) (hnt : 0 < nt) :
    splitDocumentForThreads [] cs nt = .ok (List.replicate nt []) := by
  unfold splitDocumentForThreads
  rw [if_neg (by omega)]
  simp only [List.length_nil, totalChunks_nil _ hcs]
  rw [if_neg (by omega), if_neg (by omega)]
  simp

/-- Folding the final merge over empty worker records changes nothing and
raises nothing. -/
theorem mergeFoldFinal_replicate_nil (st : Record) (n : Nat) :
    mergeFoldFinal st (List.replicate n []) = (st, none) := by
  induction n with
  | zero => rfl
  | succ n ih => simpa [List.replicate_succ, mergeFoldFinal, mergeItemsFinal] using ih

/-- Downstream of the read, the engine does behave on empty text as the
spec's empty-document contract describes: zero chunks (one empty batch per
worker) and a completed run whose aggregate is the empty record — no
metric at all, hence only all-zero/empty metrics.  The real run never
reaches this code on an empty document (see
`empty_document_run_raises`): this lemma shows the processing logic itself
matches the contract, so the mmap read is the slip. -/
theorem run_empty_document (cs nt : Nat) (f : List Char → Except PyError Record)
    (hcs : 0 < cs) (hnt : 0 < nt) :
    processDocumentParallel [] cs nt f = .ok ⟨List.replicate nt [], []⟩ := by
  unfold processDocumentParallel
  rw [split_empty_document cs nt hcs hnt]
  dsimp only
  have hmap : (List.replicate nt ([] : List (List Char))).map
      (fun chunks => processChunks chunks f) = List.replicate nt [] := by
    rw [List.map_replicate]
    rfl
  rw [hmap, mergeFoldFinal_replicate_nil]
  rfl

/-- Concrete instance of `run_empty_document` at chunk size 10 and four
workers running word count. -/
theorem run_empty_document_witness :
    0 < 10 ∧ 0 < 4 ∧
      processDocumentParallel [] 10 4 wordCountProcessor =
        .ok ⟨List.replicate 4 [], []⟩ :=
  ⟨by decide, by decide, run_empty_document 10 4 wordCountProcessor (by decide) (by decide)⟩

/-- C8: the claim — empty document → empty chunk sequence, run completes
without error, report with only all-zero/empty metrics — states the spec's
empty-document contract, and the engine's processing logic downstream of
the read does satisfy it (`run_empty_document`).  But the run never gets
there: `mmap.mmap` (line 37) raises `ValueError: cannot mmap an empty
file`, the `except IOError` handler (line 66) does not catch a ValueError,
and so the split and the whole run raise and no report is produced.  This
theorem evaluates the code, read step included, at the failing input: the
empty document, under any chunk size, worker count and aggregation
function. -/
theorem empty_document_run_raises (cs nt : Nat)
    (f : List Char → Except PyError Record) :
    splitDocumentFile [] cs nt = .error .valueErr ∧
      processDocumentFile [] cs nt f = .error .valueErr :=
  ⟨rfl, rfl⟩

/-- The concrete scenario document of C9. -/
def c9doc : List Char := ("the cat sat on the mat").toList

/-- The frequency table the run actually produces on `c9doc` with chunk size
10: the trim points cut inside "sat" and "mat", and the characters between a
trim point and the next stride boundary are dropped, leaving the fragments
"t" and "at". -/
def c9freq : List (Key × Int) :=
  [(("the").toList, 2), (("cat").toList, 1), (("t").toList, 1),
   (("on").toList, 1), (("at").toList, 1)]

/-- The single worker record (and aggregate) the run actually produces. -/
def c9record : Record :=
  [(("total_words").toList, .intV 6), (("word_frequencies").toList, .dictV c9freq)]

/-- Counterexample to C9: running word count over
`"the cat sat on the mat"` with chunk size 10 does NOT produce the claimed
table `{the: 2, cat: 1, sat: 1, on: 1, mat: 1}` — the actual aggregate's
frequency table has no entry for `sat` or `mat` at all (their fragments `t`
and `at` appear instead), so the claimed aggregate is refuted at this
concrete input. -/
theorem wordcount_scenario_counterexample :
    processDocumentParallel c9doc 10 1 wordCountProcessor = .ok ⟨[c9record], c9record⟩ ∧
      rlookup (("sat").toList) c9freq = none ∧
      rlookup (("mat").toList) c9freq = none := by
  refine ⟨by decide, by decide, by decide⟩

/-- C9 amended: the run over `"the cat sat on the mat"` with chunk size 10
splits into the boundary-trimmed chunks `["the cat", "t on the", "at"]`
(the trimmed-off characters are dropped, not carried over), and yields
`total_words = 6` with frequency table
`{the: 2, cat: 1, t: 1, on: 1, at: 1}`. -/
theorem wordcount_scenario_actual :
    splitDocumentForThreads c9doc 10 1 =
      .ok [[("the cat").toList, ("t on the").toList, ("at").toList]] ∧
      processDocumentParallel c9doc 10 1 wordCountProcessor = .ok ⟨[c9record], c9record⟩ ∧
      rlookup (("total_words").toList) c9record = some (.intV 6) ∧
      rlookup (("word_frequencies").toList) c9record = some (.dictV c9freq) ∧
      rlookup (("the").toList) c9freq = some 2 ∧
      rlookup (("cat").toList) c9freq = some 1 ∧
      rlookup (("t").toList) c9freq = some 1 ∧
      rlookup (("on").toList) c9freq = some 1 ∧
      rlookup (("at").toList) c9freq = some 1 := by
  refine ⟨by decide, by decide, by decide, by decide, by decide, by decide,
    by decide, by decide, by decide⟩

/-- An aggregation function that violates the shape contract mid-run: the
chunk `"a"` yields an integer for key `"k"`, every other chunk a set of
strings for the same key. -/
def mixedShapeFn : List Char → Except PyError Record := fun c =>
  if c = ("a").toList then .ok [(("k").toList, .intV 1)]
  else .ok [(("k").toList, .setV [("x").toList])]

/-- Counterexample to C7: on the document `"ab"` with chunk size 1 the two
chunk records disagree on the shape of key `"k"` (integer vs set).  The
resulting `AttributeError` from `int.update` is raised inside
`process_chunks`' per-chunk `try`/`except Exception`, so it is logged and
swallowed: the run does NOT fail, the mismatch is silently dropped, and the
run continues to a normal report — refuting the claim that such a mismatch
is surfaced to the caller and aborts the run. -/
theorem shape_mismatch_swallowed_counterexample :
    processDocumentParallel (("ab").toList) 1 1 mixedShapeFn =
      .ok ⟨[[(("k").toList, .intV 1)]], [(("k").toList, .intV 1)]⟩ := by decide

/-- C7 amended: a value-shape mismatch aborts the run only when it is raised
by the final worker-level merge; the run's possible errors are exactly the
splitter's errors and the final merge's errors.  A mismatch during
chunk-level merging inside a worker is caught by the per-chunk handler
(`except Exception`, line 106), logged, and the run continues past it. -/
theorem run_error_sources (text : List Char) (cs nt : Nat)
    (f : List Char → Except PyError Record) (e : PyError) :
    processDocumentParallel text cs nt f = .error e ↔
      splitDocumentForThreads text cs nt = .error e ∨
        ∃ bs, splitDocumentForThreads text cs nt = .ok bs ∧
          (mergeFoldFinal [] (bs.map (fun chunks => processChunks chunks f))).2 =
            some e := by
  unfold processDocumentParallel
  cases hs : splitDocumentForThreads text cs nt with
  | error e1 =>
    simp only [hs]
    constructor
    · intro h
      exact Or.inl (by simpa using h)
    · rintro (h | ⟨bs, hbs, _⟩)
      · simpa using h
      · exact absurd hbs (by simp)
  | ok bs =>
    dsimp only
    cases hm : mergeFoldFinal [] (bs.map (fun chunks => processChunks chunks f)) with
    | mk final oe =>
      cases oe with
      | none =>
        simp only [hm]
        constructor
        · intro h
          exact absurd h (by simp)
        · rintro (h | ⟨bs1, hbs1, h2⟩)
          · exact absurd h (by simp)
          · have hb : bs = bs1 := by simpa using hbs1
            subst hb
            rw [hm] at h2
            exact absurd h2 (by simp)
      | some e1 =>
        simp only [hm]
        constructor
        · intro h
          refine Or.inr ⟨bs, rfl, ?_⟩
          rw [hm]
          simpa using h
        · rintro (h | ⟨bs1, hbs1, h2⟩)
          · exact absurd h (by simp)
          · have hb : bs = bs1 := by simpa using hbs1
            subst hb
            rw [hm] at h2
            simp at h2
            simp [h2]


/-!
## Association-list and merge-rule lemmas
-/

/-- Looking up in an appended list falls through to the second list. -/
theorem rlookup_append {β : Type} (k : Key) (t1 t2 : List (Key × β)) :
    rlookup k (t1 ++ t2) =
      match rlookup k t1 with
      | some w => some w
      | none => rlookup k t2 := by
  induction t1 with
  | nil => rfl
  | cons p rest ih =>
    by_cases h : p.1 = k
    · simp [rlookup, h]
    · simp [rlookup, h, ih]

/-- A key outside the key column looks up to nothing. -/
theorem rlookup_not_mem_keys {β : Type} (k : Key) (l : List (Key × β))
    (h : k ∉ l.map Prod.fst) : rlookup k l = none := by
  induction l with
  | nil => rfl
  | cons p rest ih =>
    simp only [List.map_cons, List.mem_cons] at h
    push_neg at h
    simp only [rlookup]
    rw [if_neg (fun hc => h.1 hc.symm)]
    exact ih h.2

/-- Rebinding a present key is visible to its lookup. -/
theorem rlookup_setFirst_self {β : Type} (k : Key) (v : β) (t : List (Key × β))
    (h : (rlookup k t).isSome) : rlookup k (setFirst k v t) = some v := by
  induction t with
  | nil => simp [rlookup] at h
  | cons p rest ih =>
    by_cases hp : p.1 = k
    · simp [setFirst, hp, rlookup]
    · simp only [rlookup, if_neg hp] at h
      simp [setFirst, hp, rlookup, ih h]

/-- Rebinding one key leaves every other key's lookup unchanged. -/
theorem rlookup_setFirst_ne {β : Type} (k k1 : Key) (v : β) (t : List (Key × β))
    (h : k1 ≠ k) : rlookup k1 (setFirst k v t) = rlookup k1 t := by
  induction t with
  | nil => rfl
  | cons p rest ih =>
    by_cases hp : p.1 = k
    · subst hp
      simp [setFirst, rlookup, Ne.symm h, ih]
    · by_cases hq : p.1 = k1
      · simp [setFirst, hp, rlookup, hq, h]
      · simp [setFirst, hp, rlookup, hq, ih]

/-- Rebinding an absent key does nothing. -/
theorem setFirst_absent {β : Type} (k : Key) (v : β) (t : List (Key × β))
    (h : rlookup k t = none) : setFirst k v t = t := by
  induction t with
  | nil => rfl
  | cons p rest ih =>
    by_cases hp : p.1 = k
    · simp [rlookup, hp] at h
    · simp only [rlookup, if_neg hp] at h
      simp [setFirst, hp, ih h]

/-- `elemKey` decides membership. -/
theorem elemKey_iff (w : Key) (l : List Key) : elemKey w l = true ↔ w ∈ l := by
  induction l with
  | nil => simp [elemKey]
  | cons x rest ih =>
    by_cases hx : x = w
    · simp [elemKey, hx]
    · simp [elemKey, hx, ih, Ne.symm hx]

/-- The merged set is the union, up to membership. -/
theorem mem_setUnion (w : Key) (ts s : List Key) :
    w ∈ setUnion ts s ↔ w ∈ ts ∨ w ∈ s := by
  unfold setUnion
  rw [List.mem_append, List.mem_filter]
  by_cases h : w ∈ ts
  · simp [h]
  · have hf : elemKey w ts = false := by
      cases hek : elemKey w ts
      · rfl
      · exact absurd ((elemKey_iff w ts).mp hek) h
    simp [h, hf]

/-- Combination of two optional integer counters: present on either side,
summed when present on both. -/
def combineInt : Option Int → Option Int → Option Int
  | none, b => b
  | some a, none => some a
  | some a, some b => some (a + b)

/-- The dict-into-dict merge computes `combineInt` pointwise, provided the
source dict has no duplicate keys (Python dicts never do). -/
theorem rlookup_dictMerge (td d : List (Key × Int))
    (hnd : (d.map Prod.fst).Nodup) (sk : Key) :
    rlookup sk (dictMerge td d) = combineInt (rlookup sk td) (rlookup sk d) := by
  induction d generalizing td with
  | nil =>
    cases h : rlookup sk td <;> simp [dictMerge, combineInt, rlookup, h]
  | cons p rest ih =>
    obtain ⟨k0, v0⟩ := p
    simp only [List.map_cons, List.nodup_cons] at hnd
    obtain ⟨hk0, hrest⟩ := hnd
    have hstep : dictMerge td ((k0, v0) :: rest) =
        dictMerge (match rlookup k0 td with
          | none => td ++ [(k0, v0)]
          | some old => setFirst k0 (old + v0) td) rest := by
      cases h : rlookup k0 td <;> simp [dictMerge, List.foldl_cons, h]
    rw [hstep, ih _ hrest]
    by_cases hsk : sk = k0
    · subst hsk
      have hnone : rlookup sk rest = none := rlookup_not_mem_keys sk rest hk0
      cases h : rlookup sk td with
      | none =>
        simp [h, hnone, rlookup_append, rlookup, combineInt]
      | some old =>
        rw [hnone]
        have := rlookup_setFirst_self sk (old + v0) td (by simp [h])
        simp [h, this, rlookup, combineInt]
    · have h1 : rlookup sk ((k0, v0) :: rest) = rlookup sk rest := by
        simp [rlookup, Ne.symm hsk]
      rw [h1]
      cases h : rlookup k0 td with
      | none =>
        have h2 := rlookup_append sk td [(k0, v0)]
        cases h3 : rlookup sk td <;>
          simp [h2, h3, rlookup, Ne.symm hsk, combineInt]
      | some old =>
        rw [rlookup_setFirst_ne _ _ _ _ hsk]

/-- The two merge blocks — chunk records into the worker record and worker
records into the final aggregate — are the same function. -/
theorem mergeKV_levels_agree : mergeKVThread = mergeKVFinal := rfl

/-- C1: the type-directed per-key merge rules, as they act on an arbitrary
target record.  (1) A key absent in the target is inserted, with the
source's value as-is, and found there afterwards.  (2) Integer values sum.
(3) Set values unite, observed up to membership.  (4) String-to-integer
mappings merge recursively: sub-keys present on both sides sum, sub-keys
present only in the source are inserted (`combineInt` pointwise; the source
dict carries distinct keys, as every Python dict does).  (5) The rules are
applied by the same function at both levels, chunk-into-worker and
worker-into-aggregate. -/
theorem merge_type_directed_rules :
    (∀ t k v, rlookup k t = none →
      mergeKVThread t k v = (t ++ [(k, v)], none) ∧
        rlookup k (mergeKVThread t k v).1 = some v) ∧
    (∀ t k m n, rlookup k t = some (.intV m) →
      (mergeKVThread t k (.intV n)).2 = none ∧
        rlookup k (mergeKVThread t k (.intV n)).1 = some (.intV (m + n))) ∧
    (∀ t k ts s, rlookup k t = some (.setV ts) →
      (mergeKVThread t k (.setV s)).2 = none ∧
        ∃ u, rlookup k (mergeKVThread t k (.setV s)).1 = some (.setV u) ∧
          ∀ w, w ∈ u ↔ w ∈ ts ∨ w ∈ s) ∧
    (∀ t k td d, rlookup k t = some (.dictV td) → (d.map Prod.fst).Nodup →
      (mergeKVThread t k (.dictV d)).2 = none ∧
        ∃ u, rlookup k (mergeKVThread t k (.dictV d)).1 = some (.dictV u) ∧
          ∀ sk, rlookup sk u = combineInt (rlookup sk td) (rlookup sk d)) ∧
    mergeKVThread = mergeKVFinal := by
  refine ⟨?_, ?_, ?_, ?_, mergeKV_levels_agree⟩
  · intro t k v h
    unfold mergeKVThread
    rw [h]
    refine ⟨rfl, ?_⟩
    simp [rlookup_append, h, rlookup]
  · intro t k m n h
    unfold mergeKVThread
    rw [h]
    exact ⟨rfl, rlookup_setFirst_self k _ t (by simp [h])⟩
  · intro t k ts s h
    unfold mergeKVThread
    rw [h]
    exact ⟨rfl, setUnion ts s, rlookup_setFirst_self k _ t (by simp [h]),
      fun w => mem_setUnion w ts s⟩
  · intro t k td d h hnd
    unfold mergeKVThread
    rw [h]
    exact ⟨rfl, dictMerge td d, rlookup_setFirst_self k _ t (by simp [h]),
      fun sk => rlookup_dictMerge td d hnd sk⟩

/-- Witness for C1, instantiating every rule at concrete records: an absent
key, two integers, two sets, and two frequency tables. -/
theorem merge_type_directed_rules_witness :
    (rlookup (("a").toList) ([] : Record) = none ∧
      rlookup (("a").toList)
        (mergeKVThread [] (("a").toList) (.intV 7)).1 = some (.intV 7)) ∧
    (rlookup (("n").toList) [((("n").toList), RVal.intV 2)] = some (.intV 2) ∧
      rlookup (("n").toList)
          (mergeKVThread [((("n").toList), RVal.intV 2)] (("n").toList)
            (.intV 3)).1 =
        some (.intV (2 + 3))) ∧
    (rlookup (("s").toList) [((("s").toList), RVal.setV [("x").toList])] =
        some (.setV [("x").toList]) ∧
      ∃ u, rlookup (("s").toList)
            (mergeKVThread [((("s").toList), RVal.setV [("x").toList])]
              (("s").toList) (.setV [("y").toList])).1 = some (.setV u) ∧
          ∀ w, w ∈ u ↔ w ∈ [("x").toList] ∨ w ∈ [("y").toList]) ∧
    (rlookup (("d").toList) [((("d").toList), RVal.dictV [(("w").toList, 1)])] =
        some (.dictV [(("w").toList, 1)]) ∧
      ∃ u, rlookup (("d").toList)
            (mergeKVThread [((("d").toList), RVal.dictV [(("w").toList, 1)])]
              (("d").toList) (.dictV [(("w").toList, 4)])).1 = some (.dictV u) ∧
          ∀ sk, rlookup sk u =
            combineInt (rlookup sk [(("w").toList, 1)])
              (rlookup sk [(("w").toList, 4)])) := by
  refine ⟨⟨by decide, ?_⟩, ⟨by decide, ?_⟩, ⟨by decide, ?_⟩, ⟨by decide, ?_⟩⟩
  · exact (merge_type_directed_rules.1 [] (("a").toList) (.intV 7) (by decide)).2
  · exact (merge_type_directed_rules.2.1 [((("n").toList), RVal.intV 2)]
      (("n").toList) 2 3 (by decide)).2
  · exact (merge_type_directed_rules.2.2.1 [((("s").toList), RVal.setV [("x").toList])]
      (("s").toList) [("x").toList] [("y").toList] (by decide)).2
  · exact (merge_type_directed_rules.2.2.2.1
      [((("d").toList), RVal.dictV [(("w").toList, 1)])]
      (("d").toList) [(("w").toList, 1)] [(("w").toList, 4)] (by decide) (by decide)).2

/-!
## Word-boundary trimming (C4)
-/

/-- `rfind(' ')` returns nothing exactly when there is no space. -/
theorem rfindSpace_none_iff (l : List Char) : rfindSpace l = none ↔ ' ' ∉ l := by
  induction l with
  | nil => simp [rfindSpace]
  | cons c rest ih =>
    simp only [rfindSpace]
    cases h : rfindSpace rest with
    | some j => simp [h] at ih ⊢; exact fun _ => ih
    | none =>
      by_cases hc : c = ' '
      · simp [hc, h]
      · simp [hc, h] at ih ⊢
        exact ⟨fun hc2 => absurd hc2.symm hc, ih⟩

/-- `rfind(' ')` returns the index of the *last* space: that position holds
a space and no later position does. -/
theorem rfindSpace_some (l : List Char) (j : Nat) (h : rfindSpace l = some j) :
    l.get? j = some ' ' ∧ ∀ j1, j < j1 → l.get? j1 ≠ some ' ' := by
  induction l generalizing j with
  | nil => simp [rfindSpace] at h
  | cons c rest ih =>
    simp only [rfindSpace] at h
    cases h0 : rfindSpace rest with
    | some j0 =>
      rw [h0] at h
      injection h with h
      subst h
      obtain ⟨hget, hlast⟩ := ih j0 h0
      refine ⟨by simpa using hget, ?_⟩
      intro j1 hj1
      cases j1 with
      | zero => omega
      | succ j2 =>
        simp only [List.get?]
        exact hlast j2 (by omega)
    | none =>
      rw [h0] at h
      by_cases hc : c = ' '
      · rw [if_pos hc] at h
        injection h with h
        subst h
        refine ⟨by simp [hc], ?_⟩
        intro j1 hj1
        cases j1 with
        | zero => omega
        | succ j2 =>
          simp only [List.get?]
          intro hcontra
          exact ((rfindSpace_none_iff rest).mp h0) (List.get?_mem hcontra)
      · rw [if_neg hc] at h
        exact absurd h (by simp)

/-- A chunk at a non-final stride is the window trimmed at its last space,
or the untouched window when the window has no space. -/
theorem mkChunk_nonfinal (text : List Char) (cs i : Nat)
    (h : (i + 1) * cs < text.length) :
    (' ' ∉ window text cs i ∧ mkChunk text cs i = window text cs i) ∨
      (∃ j, (window text cs i).get? j = some ' ' ∧
        (∀ j1, j < j1 → (window text cs i).get? j1 ≠ some ' ') ∧
        mkChunk text cs i = (window text cs i).take j) := by
  unfold mkChunk
  rw [if_pos h]
  cases h0 : rfindSpace (window text cs i) with
  | none => exact Or.inl ⟨(rfindSpace_none_iff _).mp h0, rfl⟩
  | some j =>
    obtain ⟨hget, hlast⟩ := rfindSpace_some _ j h0
    exact Or.inr ⟨j, hget, hlast, rfl⟩

/-- Appending into one bucket adds exactly that element to the flattened
contents. -/
theorem mem_flatten_appendAt {α : Type} (bs : List (List α)) (i : Nat) (x y : α)
    (h : y ∈ (appendAt bs i x).flatten) : y ∈ bs.flatten ∨ y = x := by
  induction bs generalizing i with
  | nil => simp [appendAt] at h
  | cons b rest ih =>
    cases i with
    | zero =>
      simp only [appendAt, List.flatten_cons, List.mem_append] at h ⊢
      rcases h with (h | h) | h
      · exact Or.inl (Or.inl h)
      · exact Or.inr (by simpa using h)
      · exact Or.inl (Or.inr h)
    | succ n =>
      simp only [appendAt, List.flatten_cons, List.mem_append] at h ⊢
      rcases h with h | h
      · exact Or.inl (Or.inl h)
      · rcases ih n h with h1 | h1
        · exact Or.inl (Or.inr h1)
        · exact Or.inr h1

/-- Every element placed by the bucket-distribution fold is one of the
chunks of the processed indices. -/
theorem mem_flatten_bucket_fold {α : Type} (idxs : List Nat) (g : Nat → Nat)
    (ch : Nat → α) (init : List (List α)) (y : α)
    (h : y ∈ (idxs.foldl (fun bs i => appendAt bs (g i) (ch i)) init).flatten) :
    y ∈ init.flatten ∨ ∃ i ∈ idxs, y = ch i := by
  induction idxs generalizing init with
  | nil => exact Or.inl h
  | cons i0 rest ih =>
    rw [List.foldl_cons] at h
    rcases ih (appendAt init (g i0) (ch i0)) h with h1 | ⟨i, hi, hy⟩
    · rcases mem_flatten_appendAt init (g i0) (ch i0) y h1 with h2 | h2
      · exact Or.inl h2
      · exact Or.inr ⟨i0, by simp, h2⟩
    · exact Or.inr ⟨i, by simp [hi], hy⟩

/-- Every chunk a successful split places into a bucket is `mkChunk` at some
stride index below the chunk count. -/
theorem split_ok_members (text : List Char) (cs nt : Nat)
    (bs : List (List (List Char)))
    (h : splitDocumentForThreads text cs nt = .ok bs) :
    ∀ c ∈ bs.flatten, ∃ i, i < totalChunks text.length cs ∧ c = mkChunk text cs i := by
  unfold splitDocumentForThreads at h
  split_ifs at h with h1 h2
  dsimp only at h
  split_ifs at h with h3
  injection h with h
  subst h
  intro c hc
  rcases mem_flatten_bucket_fold _ _ _ _ c hc with h4 | ⟨i, hi, hy⟩
  · simp at h4
  · exact ⟨i, by simpa using hi, hy⟩

/-- Counterexample to C4: on `"ab  xyz"` with chunk size 4 the first window
is `"ab  "`; its end (4) falls strictly before the text's end (7), so the
chunk is non-final.  `rfind(' ')` finds the *last* space (index 3) and the
trim keeps `chunk[:3] = "ab "`, whose last character is itself a whitespace
character — and the chunk plainly contains whitespace — refuting the claimed
consequence that every non-final chunk ends in a non-whitespace character or
contains no whitespace at all.  (The search is also for the space character
only, not for arbitrary whitespace.) -/
theorem boundary_trim_counterexample :
    splitDocumentForThreads (("ab  xyz").toList) 4 1 =
        .ok [[("ab ").toList, ("xyz").toList]] ∧
      (0 + 1) * 4 < (("ab  xyz").toList).length ∧
      (("ab ").toList).getLast? = some ' ' ∧
      (' ').isWhitespace = true ∧
      ' ' ∈ ("ab ").toList := by
  refine ⟨by decide, by decide, by decide, by decide, by decide⟩

/-- C4 amended: every chunk a successful split produces is the window of
some stride index, and every *non-final* such chunk (window end strictly
before the text's end) is the window trimmed to the prefix strictly before
the window's *last space* when the window contains a space — such a chunk
can still end in whitespace, e.g. under consecutive spaces, and whitespace
other than the space character is not treated as a boundary — or the
untouched window when the window contains no space. -/
theorem boundary_trim_characterization (text : List Char) (cs nt : Nat)
    (bs : List (List (List Char)))
    (h : splitDocumentForThreads text cs nt = .ok bs) :
    ∀ c ∈ bs.flatten, ∃ i, i < totalChunks text.length cs ∧ c = mkChunk text cs i ∧
      ((i + 1) * cs < text.length →
        (' ' ∉ window text cs i ∧ c = window text cs i) ∨
          (∃ j, (window text cs i).get? j = some ' ' ∧
            (∀ j1, j < j1 → (window text cs i).get? j1 ≠ some ' ') ∧
            c = (window text cs i).take j)) := by
  intro c hc
  obtain ⟨i, hi, hy⟩ := split_ok_members text cs nt bs h c hc
  refine ⟨i, hi, hy, fun hnf => ?_⟩
  subst hy
  exact mkChunk_nonfinal text cs i hnf

/-- Witness for the amended C4 on the two-space document: the non-final
chunk `"ab "` is characterized by the last-space trim. -/
theorem boundary_trim_characterization_witness :
    splitDocumentForThreads (("ab  xyz").toList) 4 1 =
        .ok [[("ab ").toList, ("xyz").toList]] ∧
      ("ab ").toList ∈ ([[("ab ").toList, ("xyz").toList]] :
          List (List (List Char))).flatten ∧
      (∃ i, i < totalChunks (("ab  xyz").toList).length 4 ∧
        ("ab ").toList = mkChunk (("ab  xyz").toList) 4 i ∧
        ((i + 1) * 4 < (("ab  xyz").toList).length →
          (' ' ∉ window (("ab  xyz").toList) 4 i ∧
              ("ab ").toList = window (("ab  xyz").toList) 4 i) ∨
            (∃ j, (window (("ab  xyz").toList) 4 i).get? j = some ' ' ∧
              (∀ j1, j < j1 →
                (window (("ab  xyz").toList) 4 i).get? j1 ≠ some ' ') ∧
              ("ab ").toList = (window (("ab  xyz").toList) 4 i).take j))) :=
  ⟨by decide, by decide,
    boundary_trim_characterization (("ab  xyz").toList) 4 1
      [[("ab ").toList, ("xyz").toList]] (by decide) (("ab ").toList) (by decide)⟩

/-!
## Reference semantics of the final merge (C10)

The pure model above observes record *values*.  Python's final merge
(lines 136-159) additionally shares *objects*: `final_results[key] = value`
on an absent key stores a reference to the very set/dict object sitting in
the contributing worker's record, and later `update`/sub-key mutations act
on that shared object in place.  To reason about this aliasing, the final
merge is re-modelled with an explicit store: mutable set/dict objects live
at store addresses, records bind keys to immutable integers or to
addresses, and in-place mutation updates the store.  Worker records
themselves are never written by the final merge — only the objects their
entries point to.
-/

/-- A Python value as held by a record slot: an immutable integer, or a
reference to a heap object. -/
inductive HVal where
  | hint : Int → HVal
  | href : Nat → HVal
deriving DecidableEq, Repr

/-- A mutable heap object: a set of strings or a string-to-integer dict. -/
inductive Obj where
  | setO : List Key → Obj
  | dictO : List (Key × Int) → Obj
deriving DecidableEq, Repr

/-- The heap: objects indexed by address. -/
abbrev Store := List Obj

/-- A worker record under reference semantics. -/
abbrev HRecord := List (Key × HVal)

/-- One step of the final merge under reference semantics (lines 139-159):
absent key — bind the aggregate to the *same* value (reference included);
`int += int` — rebind the aggregate's slot; `set.update(set)` and the
dict-into-dict merge — mutate the *target object* in the store, leaving the
aggregate's binding (and every worker record) untouched.  Type mismatches
raise as in the pure model; a dangling reference cannot arise in a run and
is mapped to an error. -/
def hMergeKV (σ : Store) (final : HRecord) (k : Key) (v : HVal) :
    Except PyError (Store × HRecord) :=
  match rlookup k final with
  | none => .ok (σ, final ++ [(k, v)])
  | some tv =>
    match v with
    | .hint n =>
      match tv with
      | .hint m => .ok (σ, setFirst k (.hint (m + n)) final)
      | .href _ => .error .typeErr
    | .href r =>
      match σ.get? r with
      | none => .error .valueErr
      | some (.setO s) =>
        match tv with
        | .hint _ => .error .attrErr
        | .href rt =>
          match σ.get? rt with
          | some (.setO ts) => .ok (σ.set rt (.setO (setUnion ts s)), final)
          | some (.dictO _) => if s = [] then .ok (σ, final) else .error .valueErr
          | none => .error .valueErr
      | some (.dictO d) =>
        match tv with
        | .hint _ => if d = [] then .ok (σ, final) else .error .typeErr
        | .href rt =>
          match σ.get? rt with
          | some (.dictO td) => .ok (σ.set rt (.dictO (dictMerge td d)), final)
          | some (.setO _) => if d = [] then .ok (σ, final) else .error .typeErr
          | none => .error .valueErr

/-- Merge one worker record into the aggregate, item by item; the final
merge has no exception handler, so the first error aborts. -/
def hMergeRecord (σ : Store) (final : HRecord) :
    List (Key × HVal) → Except PyError (Store × HRecord)
  | [] => .ok (σ, final)
  | (k, v) :: rest =>
    match hMergeKV σ final k v with
    | .ok (σ1, F1) => hMergeRecord σ1 F1 rest
    | .error e => .error e

/-- Fold the reference-semantics merge over the worker records, starting
from a given aggregate. -/
def hFinalFold (σ : Store) (final : HRecord) :
    List HRecord → Except PyError (Store × HRecord)
  | [] => .ok (σ, final)
  | w :: rest =>
    match hMergeRecord σ final w with
    | .ok (σ1, F1) => hFinalFold σ1 F1 rest
    | .error e => .error e

/-- The whole final merge: fold all worker records into an initially empty
aggregate (`final_results = {}`, line 136). -/
def hFinalMerge (σ : Store) (ws : List HRecord) : Except PyError (Store × HRecord) :=
  hFinalFold σ [] ws

/-- A successful merge step changes the aggregate's bindings in one of
three ways only: appends the new binding, leaves the record unchanged
(store-only mutation), or rebinds the processed key. -/
theorem hMergeKV_ok_shape (s : Store) (final : HRecord) (k0 : Key) (v0 : HVal)
    (s1 : Store) (F1 : HRecord) (h : hMergeKV s final k0 v0 = .ok (s1, F1)) :
    F1 = final ++ [(k0, v0)] ∨ F1 = final ∨ ∃ u, F1 = setFirst k0 u final := by
  unfold hMergeKV at h
  repeat' split at h
  all_goals
    first
      | (simp only [Except.ok.injEq, Prod.mk.injEq] at h
         first
           | exact Or.inl h.2.symm
           | exact Or.inr (Or.inl h.2.symm)
           | exact Or.inr (Or.inr ⟨_, h.2.symm⟩))
      | exact absurd h (by simp)

/-- A successful merge step leaves every other key's aggregate binding
unchanged. -/
theorem hMergeKV_frame (s : Store) (final : HRecord) (k0 : Key) (v0 : HVal)
    (s1 : Store) (F1 : HRecord) (h : hMergeKV s final k0 v0 = .ok (s1, F1))
    (k : Key) (hk : k ≠ k0) : rlookup k F1 = rlookup k final := by
  rcases hMergeKV_ok_shape s final k0 v0 s1 F1 h with h1 | h1 | ⟨u, h1⟩
  · subst h1
    rw [rlookup_append]
    cases h2 : rlookup k final with
    | some w => rfl
    | none =>
      have hne : ¬k0 = k := fun hc => hk hc.symm
      simp [rlookup, hne]
  · rw [h1]
  · subst h1
    exact rlookup_setFirst_ne k0 k u final hk

/-- A successful merge step never rebinds a key currently bound to a
reference: reference-valued aggregate entries are mutated through the
store, never replaced. -/
theorem hMergeKV_preserves_href (s : Store) (final : HRecord) (k0 : Key)
    (v0 : HVal) (s1 : Store) (F1 : HRecord)
    (h : hMergeKV s final k0 v0 = .ok (s1, F1)) (k : Key) (r : Nat)
    (hk : rlookup k final = some (.href r)) :
    rlookup k F1 = some (.href r) := by
  by_cases hkk : k = k0
  · subst hkk
    unfold hMergeKV at h
    rw [hk] at h
    repeat' split at h
    all_goals
      first
        | (simp only [Except.ok.injEq, Prod.mk.injEq] at h
           rw [← h.2, hk])
        | simp_all
  · rw [hMergeKV_frame s final k0 v0 s1 F1 h k hkk]
    exact hk

/-- Merging a whole worker record preserves reference-valued aggregate
bindings. -/
theorem hMergeRecord_preserves_href (w : List (Key × HVal)) :
    ∀ (s : Store) (final : HRecord) (s1 : Store) (F1 : HRecord),
      hMergeRecord s final w = .ok (s1, F1) →
        ∀ (k : Key) (r : Nat), rlookup k final = some (.href r) →
          rlookup k F1 = some (.href r) := by
  induction w with
  | nil =>
    intro s final s1 F1 h k r hk
    simp only [hMergeRecord, Except.ok.injEq, Prod.mk.injEq] at h
    rw [← h.2]
    exact hk
  | cons p rest ih =>
    intro s final s1 F1 h k r hk
    obtain ⟨k0, v0⟩ := p
    simp only [hMergeRecord] at h
    cases hstep : hMergeKV s final k0 v0 with
    | error e => rw [hstep] at h; exact absurd h (by simp)
    | ok p1 =>
      obtain ⟨sa, Fa⟩ := p1
      rw [hstep] at h
      exact ih sa Fa s1 F1 h k r
        (hMergeKV_preserves_href s final k0 v0 sa Fa hstep k r hk)

/-- Merging a worker record that does not mention a key leaves that key
absent from the aggregate. -/
theorem hMergeRecord_preserves_none (w : List (Key × HVal)) :
    ∀ (s : Store) (final : HRecord) (s1 : Store) (F1 : HRecord),
      hMergeRecord s final w = .ok (s1, F1) →
        ∀ k : Key, rlookup k w = none → rlookup k final = none →
          rlookup k F1 = none := by
  induction w with
  | nil =>
    intro s final s1 F1 h k _ hk
    simp only [hMergeRecord, Except.ok.injEq, Prod.mk.injEq] at h
    rw [← h.2]
    exact hk
  | cons p rest ih =>
    intro s final s1 F1 h k hw hk
    obtain ⟨k0, v0⟩ := p
    have hne : k0 ≠ k := by
      intro hc
      subst hc
      simp [rlookup] at hw
    have hwrest : rlookup k rest = none := by
      simpa [rlookup, hne] using hw
    simp only [hMergeRecord] at h
    cases hstep : hMergeKV s final k0 v0 with
    | error e => rw [hstep] at h; exact absurd h (by simp)
    | ok p1 =>
      obtain ⟨sa, Fa⟩ := p1
      rw [hstep] at h
      refine ih sa Fa s1 F1 h k hwrest ?_
      rw [hMergeKV_frame s final k0 v0 sa Fa hstep k (fun hc => hne hc.symm)]
      exact hk

/-- When a key is absent from the aggregate and a worker record binds it
(first binding a reference), merging that record installs exactly that
reference, and it survives the rest of the record. -/
theorem hMergeRecord_first_contrib (w : List (Key × HVal)) :
    ∀ (s : Store) (final : HRecord) (s1 : Store) (F1 : HRecord),
      hMergeRecord s final w = .ok (s1, F1) →
        ∀ (k : Key) (r : Nat), rlookup k final = none →
          rlookup k w = some (.href r) →
          rlookup k F1 = some (.href r) := by
  induction w with
  | nil =>
    intro s final s1 F1 h k r _ hw
    simp [rlookup] at hw
  | cons p rest ih =>
    intro s final s1 F1 h k r hk hw
    obtain ⟨k0, v0⟩ := p
    simp only [hMergeRecord] at h
    by_cases hkk : k0 = k
    · subst hkk
      have hv0 : v0 = .href r := by
        simpa [rlookup] using hw
      subst hv0
      have hstep : hMergeKV s final k0 (.href r) = .ok (s, final ++ [(k0, .href r)]) := by
        unfold hMergeKV
        rw [hk]
      rw [hstep] at h
      have hbind : rlookup k0 (final ++ [(k0, .href r)]) = some (.href r) := by
        rw [rlookup_append, hk]
        simp [rlookup]
      exact hMergeRecord_preserves_href rest s (final ++ [(k0, .href r)]) s1 F1 h
        k0 r hbind
    · have hwrest : rlookup k rest = some (.href r) := by
        simpa [rlookup, hkk] using hw
      cases hstep : hMergeKV s final k0 v0 with
      | error e => rw [hstep] at h; exact absurd h (by simp)
      | ok p1 =>
        obtain ⟨sa, Fa⟩ := p1
        rw [hstep] at h
        refine ih sa Fa s1 F1 h k r ?_ hwrest
        rw [hMergeKV_frame s final k0 v0 sa Fa hstep k (fun hc => hkk hc.symm)]
        exact hk

/-- Folding worker records preserves reference-valued aggregate bindings. -/
theorem hFinalFold_preserves_href (ws : List HRecord) :
    ∀ (s : Store) (final : HRecord) (s1 : Store) (F1 : HRecord),
      hFinalFold s final ws = .ok (s1, F1) →
        ∀ (k : Key) (r : Nat), rlookup k final = some (.href r) →
          rlookup k F1 = some (.href r) := by
  induction ws with
  | nil =>
    intro s final s1 F1 h k r hk
    simp only [hFinalFold, Except.ok.injEq, Prod.mk.injEq] at h
    rw [← h.2]
    exact hk
  | cons w rest ih =>
    intro s final s1 F1 h k r hk
    simp only [hFinalFold] at h
    cases hstep : hMergeRecord s final w with
    | error e => rw [hstep] at h; exact absurd h (by simp)
    | ok p1 =>
      obtain ⟨sa, Fa⟩ := p1
      rw [hstep] at h
      exact ih sa Fa s1 F1 h k r
        (hMergeRecord_preserves_href w s final sa Fa hstep k r hk)

/-- C10 amended, general form: in any successful final merge, the first
worker record that binds a key — all earlier records being silent on it —
with a reference `r` to its own set/dict object hands exactly that
reference to the aggregate: the final merged results bind the key to `r`,
the worker's record still binds the key to `r` (the final merge never
writes into worker records), and all later contributions to the key were
folded into the object at `r` in place.  Hence the per-worker breakdown
in the report shows, for that key, the fully merged aggregate object — not,
in general, the worker's own partial result. -/
theorem first_contributor_aliases_aggregate (σ : Store) (pre post : List HRecord)
    (w : HRecord) (k : Key) (r : Nat) (σ1 : Store) (F : HRecord)
    (hpre : ∀ w1 ∈ pre, rlookup k w1 = none)
    (hw : rlookup k w = some (.href r))
    (h : hFinalMerge σ (pre ++ w :: post) = .ok (σ1, F)) :
    rlookup k F = some (.href r) ∧ rlookup k w = some (.href r) := by
  refine ⟨?_, hw⟩
  unfold hFinalMerge at h
  have main : ∀ (preL : List HRecord) (s : Store) (final : HRecord)
      (s1 : Store) (F1 : HRecord),
      hFinalFold s final (preL ++ w :: post) = .ok (s1, F1) →
        (∀ w1 ∈ preL, rlookup k w1 = none) →
        rlookup k final = none →
        rlookup k F1 = some (.href r) := by
    intro preL
    induction preL with
    | nil =>
      intro s final s1 F1 hfold _ hfin
      simp only [List.nil_append, hFinalFold] at hfold
      cases hstep : hMergeRecord s final w with
      | error e => rw [hstep] at hfold; exact absurd hfold (by simp)
      | ok p1 =>
        obtain ⟨sa, Fa⟩ := p1
        rw [hstep] at hfold
        exact hFinalFold_preserves_href post sa Fa s1 F1 hfold k r
          (hMergeRecord_first_contrib w s final sa Fa hstep k r hfin hw)
    | cons w1 rest ih =>
      intro s final s1 F1 hfold hnone hfin
      simp only [List.cons_append, hFinalFold] at hfold
      cases hstep : hMergeRecord s final w1 with
      | error e => rw [hstep] at hfold; exact absurd hfold (by simp)
      | ok p1 =>
        obtain ⟨sa, Fa⟩ := p1
        rw [hstep] at hfold
        refine ih sa Fa s1 F1 hfold (fun w2 hw2 => hnone w2 (by simp [hw2])) ?_
        exact hMergeRecord_preserves_none w1 s final sa Fa hstep k
          (hnone w1 (by simp)) hfin
  exact main pre σ [] σ1 F h hpre rfl

/-- Counterexample to C10 as stated: two workers both contribute the same
singleton set `{"a"}` for `unique_words`.  The merge unions the second
worker's set into the first worker's object, but the union adds nothing, so
the store comes back bit-for-bit unchanged: the first contributing worker's
record still holds exactly its own partial result for the key (which here
coincides with the merged aggregate), refuting the claim that in *every*
run where at least two workers share a set- or dict-valued key the
breakdown "no longer holds the first contributing worker's own partial
result". -/
theorem first_contributor_unchanged_counterexample :
    hFinalMerge [Obj.setO [("a").toList], Obj.setO [("a").toList]]
        [[(kUniqueWords, HVal.href 0)], [(kUniqueWords, HVal.href 1)]] =
      .ok ([Obj.setO [("a").toList], Obj.setO [("a").toList]],
        [(kUniqueWords, HVal.href 0)]) := by decide

/-- Witness for the amended C10: the first of two workers contributes the
set object at address 0; after the merge the aggregate binds the key to that
same address, whose object now holds the union of both contributions. -/
theorem first_contributor_aliases_aggregate_witness :
    (∀ w1 ∈ ([] : List HRecord), rlookup kUniqueWords w1 = none) ∧
      rlookup kUniqueWords [(kUniqueWords, HVal.href 0)] = some (.href 0) ∧
      hFinalMerge [Obj.setO [("a").toList], Obj.setO [("b").toList]]
          ([] ++ [(kUniqueWords, HVal.href 0)] :: [[(kUniqueWords, HVal.href 1)]]) =
        .ok ([Obj.setO [("a").toList, ("b").toList], Obj.setO [("b").toList]],
          [(kUniqueWords, HVal.href 0)]) ∧
      rlookup kUniqueWords [(kUniqueWords, HVal.href 0)] = some (.href 0) :=
  ⟨by simp, by decide, by decide,
    (first_contributor_aliases_aggregate
      [Obj.setO [("a").toList], Obj.setO [("b").toList]] []
      [[(kUniqueWords, HVal.href 1)]] [(kUniqueWords, HVal.href 0)]
      kUniqueWords 0
      [Obj.setO [("a").toList, ("b").toList], Obj.setO [("b").toList]]
      [(kUniqueWords, HVal.href 0)]
      (by simp) (by decide) (by decide)).1⟩

/-!
## Merge-order invariance (C2)

Batch mode folds each worker's chunk records into a worker record (inside
`process_chunks`, merge errors caught per chunk), then folds the worker
records into the final aggregate.  The claim quantifies over the per-chunk
ResultRecords, over their permutation and over their grouping into workers.
"The same final Aggregate" compares aggregates the way Python compares the
values: integers bit-for-bit, sets by membership, frequency tables by their
key-to-count mapping.
-/

/-- The runtime shape of a record value (what `isinstance` dispatches on). -/
inductive VShape where
  | sInt
  | sSet
  | sDict
  | sList
deriving DecidableEq, Repr

/-- Shape of a value. -/
def shapeOf : RVal → VShape
  | .intV _ => .sInt
  | .setV _ => .sSet
  | .dictV _ => .sDict
  | .listV _ => .sList

/-- A value an aggregation function may produce in a run: frequency tables
carry distinct keys (Python dicts always do), and plain lists never occur
(they only arise in the final `unique_words` formatting). -/
def valOK : RVal → Bool
  | .dictV d => decide ((d.map Prod.fst).Nodup)
  | .listV _ => false
  | _ => true

/-- A well-formed ResultRecord as produced by an aggregation function:
distinct metric names, and well-formed values. -/
def recOK (r : Record) : Prop :=
  (r.map Prod.fst).Nodup ∧ ∀ p ∈ r, valOK p.2 = true

instance (r : Record) : Decidable (recOK r) := by
  unfold recOK
  infer_instance

/-- Two records never bind a common key to values of different shapes (all
records of one run come from the same aggregation function). -/
def rCompat (r1 r2 : Record) : Prop :=
  ∀ p ∈ r1, ∀ q ∈ r2, p.1 = q.1 → shapeOf p.2 = shapeOf q.2

instance (r1 r2 : Record) : Decidable (rCompat r1 r2) := by
  unfold rCompat
  infer_instance

/-- Pairwise shape-compatibility of a collection of records. -/
def pairCompat (rs : List Record) : Prop := ∀ r1 ∈ rs, ∀ r2 ∈ rs, rCompat r1 r2

instance (rs : List Record) : Decidable (pairCompat rs) := by
  unfold pairCompat
  infer_instance

/-- Value equality as Python's `==` sees the run's values: integers
bit-for-bit, sets by membership, frequency tables by their mappings. -/
def vEquiv : RVal → RVal → Prop
  | .intV a, .intV b => a = b
  | .setV s, .setV t => ∀ w, w ∈ s ↔ w ∈ t
  | .dictV d, .dictV e => ∀ sk, rlookup sk d = rlookup sk e
  | .listV s, .listV t => s = t
  | _, _ => False

/-- Optional-value equality. -/
def oEquiv : Option RVal → Option RVal → Prop
  | none, none => True
  | some v, some w => vEquiv v w
  | _, _ => False

/-- Record equality as Python's `==` sees it: the same keys bound to equal
values. -/
def rEquiv (r1 r2 : Record) : Prop := ∀ k, oEquiv (rlookup k r1) (rlookup k r2)

/-- A worker's in-batch merge of its chunk records (the loop of
`process_chunks` minus the aggregation-function calls): each chunk record is
merged into the worker record, any merge error being caught per chunk with
the partially merged state kept. -/
def mergeFoldThread (st : Record) (rs : List Record) : Record :=
  rs.foldl (fun st r => (mergeItemsThread st r).1) st

/-- The aggregate a grouped run computes: merge every group's chunk records
into a worker record, then fold the worker records into the final
aggregate (line 136's `final_results = {}` onwards). -/
def aggregateGrouped (gs : List (List Record)) : Record :=
  (mergeFoldFinal [] (gs.map (fun g => mergeFoldThread [] g))).1

/-- Combination of two values of matching shape, exactly as the merge
computes it (by cases on the claim's three shapes; the fallback keeps the
target, matching the merge's treatment of a list source). -/
def vAdd : RVal → RVal → RVal
  | .intV a, .intV b => .intV (a + b)
  | .setV s, .setV t => .setV (setUnion s t)
  | .dictV d, .dictV e => .dictV (dictMerge d e)
  | v, _ => v

/-- Combination of two optional record values: the merge's per-key effect. -/
def ocomb : Option RVal → Option RVal → Option RVal
  | none, b => b
  | some a, none => some a
  | some a, some b => some (vAdd a b)

/-- Folding a key's values across a list of records. -/
def olookfold (k : Key) (a : Option RVal) (rs : List Record) : Option RVal :=
  rs.foldl (fun a r => ocomb a (rlookup k r)) a

/-- Shape-compatibility stated through lookups. -/
def lcompat (r1 r2 : Record) : Prop :=
  ∀ k v w, rlookup k r1 = some v → rlookup k r2 = some w → shapeOf v = shapeOf w

/-- Combining values keeps the target's shape. -/
theorem shapeOf_vAdd (a b : RVal) : shapeOf (vAdd a b) = shapeOf a := by
  cases a <;> cases b <;> rfl

/-- `ocomb` ignores an absent source. -/
theorem ocomb_none_right (a : Option RVal) : ocomb a none = a := by
  cases a <;> rfl

/-- A present lookup witnesses a record entry. -/
theorem rlookup_mem {β : Type} (k : Key) (l : List (Key × β)) (v : β)
    (h : rlookup k l = some v) : (k, v) ∈ l := by
  induction l with
  | nil => simp [rlookup] at h
  | cons p rest ih =>
    by_cases hp : p.1 = k
    · simp only [rlookup, if_pos hp] at h
      injection h with h
      subst h
      subst hp
      simp
    · simp only [rlookup, if_neg hp] at h
      simp [ih h]

/-- A key is absent from the lookup exactly when it is outside the key
column. -/
theorem rlookup_none_iff {β : Type} (k : Key) (l : List (Key × β)) :
    rlookup k l = none ↔ k ∉ l.map Prod.fst := by
  constructor
  · intro h hmem
    induction l with
    | nil => simp at hmem
    | cons p rest ih =>
      by_cases hp : p.1 = k
      · simp [rlookup, hp] at h
      · simp only [rlookup, if_neg hp] at h
        simp only [List.map_cons, List.mem_cons] at hmem
        rcases hmem with hmem | hmem
        · exact hp hmem.symm
        · exact ih h hmem
  · exact rlookup_not_mem_keys k l

/-- Rebinding keeps the key column. -/
theorem keys_setFirst {β : Type} (k : Key) (v : β) (l : List (Key × β)) :
    (setFirst k v l).map Prod.fst = l.map Prod.fst := by
  induction l with
  | nil => rfl
  | cons p rest ih =>
    by_cases hp : p.1 = k
    · simp [setFirst, hp]
    · simp [setFirst, hp, ih]

/-- Entries after a rebinding come from the rebinding or the original. -/
theorem mem_setFirst {β : Type} (k : Key) (v : β) (l : List (Key × β))
    (p : Key × β) (h : p ∈ setFirst k v l) : p = (k, v) ∨ p ∈ l := by
  induction l with
  | nil => simp [setFirst] at h
  | cons q rest ih =>
    by_cases hq : q.1 = k
    · simp only [setFirst, if_pos hq, List.mem_cons] at h
      rcases h with h | h
      · exact Or.inl h
      · exact Or.inr (by simp [h])
    · simp only [setFirst, if_neg hq, List.mem_cons] at h
      rcases h with h | h
      · exact Or.inr (by simp [h])
      · rcases ih h with h1 | h1
        · exact Or.inl h1
        · exact Or.inr (by simp [h1])

/-- The dict merge keeps the target's keys distinct. -/
theorem dictMerge_nodup (d : List (Key × Int)) :
    ∀ td : List (Key × Int), (td.map Prod.fst).Nodup →
      ((dictMerge td d).map Prod.fst).Nodup := by
  induction d with
  | nil => intro td h; exact h
  | cons p rest ih =>
    intro td h
    obtain ⟨k0, v0⟩ := p
    have hstep : dictMerge td ((k0, v0) :: rest) =
        dictMerge (match rlookup k0 td with
          | none => td ++ [(k0, v0)]
          | some old => setFirst k0 (old + v0) td) rest := by
      cases hl : rlookup k0 td <;> simp [dictMerge, List.foldl_cons, hl]
    rw [hstep]
    cases hl : rlookup k0 td with
    | none =>
      refine ih _ ?_
      have hk : k0 ∉ td.map Prod.fst := (rlookup_none_iff k0 td).mp hl
      simp [List.nodup_append, h, hk]
    | some old =>
      refine ih _ ?_
      rw [keys_setFirst]
      exact h

/-- One compatible, well-formed merge step raises nothing, combines the
processed key's value by `ocomb`, leaves other keys alone, and preserves
well-formedness. -/
theorem mergeKVThread_ok (t : Record) (k0 : Key) (v0 : RVal)
    (htn : (t.map Prod.fst).Nodup) (hts : ∀ p ∈ t, valOK p.2 = true)
    (hv0 : valOK v0 = true)
    (hshape : ∀ tv, rlookup k0 t = some tv → shapeOf tv = shapeOf v0) :
    (mergeKVThread t k0 v0).2 = none ∧
      rlookup k0 (mergeKVThread t k0 v0).1 = ocomb (rlookup k0 t) (some v0) ∧
      (∀ k, k ≠ k0 → rlookup k (mergeKVThread t k0 v0).1 = rlookup k t) ∧
      ((mergeKVThread t k0 v0).1.map Prod.fst).Nodup ∧
      (∀ p ∈ (mergeKVThread t k0 v0).1, valOK p.2 = true) := by
  cases hl : rlookup k0 t with
  | none =>
    have hres : mergeKVThread t k0 v0 = (t ++ [(k0, v0)], none) := by
      unfold mergeKVThread
      rw [hl]
    rw [hres]
    refine ⟨rfl, ?_, ?_, ?_, ?_⟩
    · simp [rlookup_append, hl, rlookup, ocomb]
    · intro k hk
      rw [rlookup_append]
      cases h2 : rlookup k t with
      | some w => rfl
      | none =>
        have hne : ¬k0 = k := fun hc => hk hc.symm
        simp [rlookup, hne]
    · have hk : k0 ∉ t.map Prod.fst := (rlookup_none_iff k0 t).mp hl
      simp [List.nodup_append, htn, hk]
    · intro p hp
      rcases List.mem_append.mp hp with hp | hp
      · exact hts p hp
      · simp only [List.mem_singleton] at hp
        rw [hp]
        exact hv0
  | some tv =>
    have hsh := hshape tv hl
    have hsome : (rlookup k0 t).isSome := by simp [hl]
    cases tv with
    | intV m =>
      cases v0 with
      | intV n =>
        have hres : mergeKVThread t k0 (.intV n) =
            (setFirst k0 (.intV (m + n)) t, none) := by
          unfold mergeKVThread
          rw [hl]
        rw [hres]
        refine ⟨rfl, ?_, ?_, ?_, ?_⟩
        · rw [rlookup_setFirst_self k0 _ t hsome]
          rfl
        · intro k hk
          exact rlookup_setFirst_ne k0 k _ t hk
        · rw [keys_setFirst]; exact htn
        · intro p hp
          rcases mem_setFirst _ _ _ p hp with hp | hp
          · rw [hp]; rfl
          · exact hts p hp
      | setV s => simp [shapeOf] at hsh
      | dictV d => simp [shapeOf] at hsh
      | listV l => simp [valOK] at hv0
    | setV ts =>
      cases v0 with
      | intV n => simp [shapeOf] at hsh
      | setV s =>
        have hres : mergeKVThread t k0 (.setV s) =
            (setFirst k0 (.setV (setUnion ts s)) t, none) := by
          unfold mergeKVThread
          rw [hl]
        rw [hres]
        refine ⟨rfl, ?_, ?_, ?_, ?_⟩
        · rw [rlookup_setFirst_self k0 _ t hsome]
          rfl
        · intro k hk
          exact rlookup_setFirst_ne k0 k _ t hk
        · rw [keys_setFirst]; exact htn
        · intro p hp
          rcases mem_setFirst _ _ _ p hp with hp | hp
          · rw [hp]; rfl
          · exact hts p hp
      | dictV d => simp [shapeOf] at hsh
      | listV l => simp [valOK] at hv0
    | dictV td =>
      cases v0 with
      | intV n => simp [shapeOf] at hsh
      | setV s => simp [shapeOf] at hsh
      | dictV d =>
        have hres : mergeKVThread t k0 (.dictV d) =
            (setFirst k0 (.dictV (dictMerge td d)) t, none) := by
          unfold mergeKVThread
          rw [hl]
        rw [hres]
        have htd : (td.map Prod.fst).Nodup := by
          have := hts (k0, .dictV td) (rlookup_mem k0 t _ hl)
          simpa [valOK] using this
        refine ⟨rfl, ?_, ?_, ?_, ?_⟩
        · rw [rlookup_setFirst_self k0 _ t hsome]
          rfl
        · intro k hk
          exact rlookup_setFirst_ne k0 k _ t hk
        · rw [keys_setFirst]; exact htn
        · intro p hp
          rcases mem_setFirst _ _ _ p hp with hp | hp
          · rw [hp]
            simpa [valOK] using dictMerge_nodup d td htd
          · exact hts p hp
      | listV l => simp [valOK] at hv0
    | listV tl =>
      cases v0 with
      | intV n => simp [shapeOf] at hsh
      | setV s => simp [shapeOf] at hsh
      | dictV d => simp [shapeOf] at hsh
      | listV l => simp [valOK] at hv0

/-- Merging one well-formed, shape-compatible record raises nothing,
combines every key by `ocomb`, and preserves well-formedness. -/
theorem mergeItemsThread_ok (items : List (Key × RVal)) :
    ∀ t : Record, (t.map Prod.fst).Nodup → (∀ p ∈ t, valOK p.2 = true) →
      (items.map Prod.fst).Nodup → (∀ p ∈ items, valOK p.2 = true) →
      (∀ k tv sv, rlookup k t = some tv → rlookup k items = some sv →
        shapeOf tv = shapeOf sv) →
      (mergeItemsThread t items).2 = none ∧
        (∀ k, rlookup k (mergeItemsThread t items).1 =
          ocomb (rlookup k t) (rlookup k items)) ∧
        ((mergeItemsThread t items).1.map Prod.fst).Nodup ∧
        (∀ p ∈ (mergeItemsThread t items).1, valOK p.2 = true) := by
  induction items with
  | nil =>
    intro t htn hts _ _ _
    refine ⟨rfl, ?_, htn, hts⟩
    intro k
    simp [mergeItemsThread, rlookup, ocomb_none_right]
  | cons q rest ih =>
    intro t htn hts hin hiv hcompat
    obtain ⟨k0, v0⟩ := q
    simp only [List.map_cons, List.nodup_cons] at hin
    obtain ⟨hk0mem, hrestn⟩ := hin
    have hv0 : valOK v0 = true := hiv (k0, v0) (by simp)
    have hrestv : ∀ p ∈ rest, valOK p.2 = true := fun p hp => hiv p (by simp [hp])
    have hitems0 : rlookup k0 ((k0, v0) :: rest) = some v0 := by simp [rlookup]
    have hshape : ∀ tv, rlookup k0 t = some tv → shapeOf tv = shapeOf v0 :=
      fun tv htv => hcompat k0 tv v0 htv hitems0
    obtain ⟨he, hk0, hframe, hn1, hv1⟩ :=
      mergeKVThread_ok t k0 v0 htn hts hv0 hshape
    rcases hmk : mergeKVThread t k0 v0 with ⟨t1, e1⟩
    rw [hmk] at he hk0 hframe hn1 hv1
    have he1 : e1 = none := he
    subst he1
    have hred : mergeItemsThread t ((k0, v0) :: rest) = mergeItemsThread t1 rest := by
      show (match mergeKVThread t k0 v0 with
            | (t2, none) => mergeItemsThread t2 rest
            | (t2, some e) => (t2, some e)) = mergeItemsThread t1 rest
      rw [hmk]
    have hrestnone : rlookup k0 rest = none := (rlookup_none_iff k0 rest).mpr hk0mem
    have hcompat1 : ∀ k tv sv, rlookup k t1 = some tv → rlookup k rest = some sv →
        shapeOf tv = shapeOf sv := by
      intro k tv sv htv hsv
      by_cases hk : k = k0
      · subst hk
        rw [hrestnone] at hsv
        exact absurd hsv (by simp)
      · rw [hframe k hk] at htv
        have : rlookup k ((k0, v0) :: rest) = some sv := by
          have hne : ¬k0 = k := fun hc => hk hc.symm
          simp [rlookup, hne, hsv]
        exact hcompat k tv sv htv this
    obtain ⟨ihe, ihk, ihn, ihv⟩ := ih t1 hn1 hv1 hrestn hrestv hcompat1
    rw [hred]
    refine ⟨ihe, ?_, ihn, ihv⟩
    intro k
    rw [ihk k]
    by_cases hk : k = k0
    · subst hk
      rw [hk0, hrestnone, hitems0, ocomb_none_right]
    · have hne : ¬k0 = k := fun hc => hk hc.symm
      rw [hframe k hk]
      simp [rlookup, hne]

/-- The shape of a combined optional value traces back to the accumulator
or, when the accumulator is silent, to the source itself. -/
theorem ocomb_some_shape (a b : Option RVal) (v : RVal) (h : ocomb a b = some v) :
    (∃ w, a = some w ∧ shapeOf v = shapeOf w) ∨ (a = none ∧ b = some v) := by
  cases a with
  | none => exact Or.inr ⟨rfl, h⟩
  | some x =>
    cases b with
    | none =>
      simp only [ocomb] at h
      injection h with h
      exact Or.inl ⟨x, rfl, by rw [← h]⟩
    | some y =>
      simp only [ocomb] at h
      injection h with h
      exact Or.inl ⟨x, rfl, by rw [← h, shapeOf_vAdd]⟩

/-- Where a fold's value comes from: the accumulator or one of the
records. -/
theorem olookfold_some_shape (k : Key) (rs : List Record) :
    ∀ (a : Option RVal) (v : RVal), olookfold k a rs = some v →
      (∃ w, a = some w ∧ shapeOf v = shapeOf w) ∨
        (∃ r ∈ rs, ∃ w, rlookup k r = some w ∧ shapeOf v = shapeOf w) := by
  induction rs with
  | nil =>
    intro a v h
    exact Or.inl ⟨v, h, rfl⟩
  | cons r0 rest ih =>
    intro a v h
    have h1 : olookfold k (ocomb a (rlookup k r0)) rest = some v := h
    rcases ih (ocomb a (rlookup k r0)) v h1 with ⟨w, hw, hsh⟩ | ⟨r, hr, w, hw, hsh⟩
    · rcases ocomb_some_shape a (rlookup k r0) w hw with ⟨w1, hw1, hsh1⟩ | ⟨ha, hb⟩
      · exact Or.inl ⟨w1, hw1, by rw [hsh, hsh1]⟩
      · exact Or.inr ⟨r0, by simp, w, hb, hsh⟩
    · exact Or.inr ⟨r, by simp [hr], w, hw, hsh⟩

/-- Mem-based compatibility gives lookup-based compatibility. -/
theorem lcompat_of_rCompat (r1 r2 : Record) (h : rCompat r1 r2) : lcompat r1 r2 :=
  fun k v w hv hw => h (k, v) (rlookup_mem k r1 v hv) (k, w) (rlookup_mem k r2 w hw) rfl

/-- An empty record is well-formed. -/
theorem recOK_nil : recOK [] := ⟨List.nodup_nil, by simp⟩

/-- Everything is lookup-compatible with the empty record. -/
theorem lcompat_nil_left (r : Record) : lcompat [] r := by
  intro k v w hv _
  simp [rlookup] at hv

/-- The worker-level fold of well-formed, pairwise-compatible chunk records
computes `olookfold` at every key and yields a well-formed record. -/
theorem mergeFoldThread_ok (rs : List Record) :
    ∀ st : Record, recOK st → (∀ r ∈ rs, recOK r) →
      (∀ r ∈ rs, lcompat st r) → (∀ r1 ∈ rs, ∀ r2 ∈ rs, lcompat r1 r2) →
      (∀ k, rlookup k (mergeFoldThread st rs) = olookfold k (rlookup k st) rs) ∧
        recOK (mergeFoldThread st rs) := by
  induction rs with
  | nil =>
    intro st hst _ _ _
    exact ⟨fun k => rfl, hst⟩
  | cons r0 rest ih =>
    intro st hst hok hcst hpair
    have hok0 : recOK r0 := hok r0 (by simp)
    obtain ⟨he, hkeq, hn1, hv1⟩ :=
      mergeItemsThread_ok r0 st hst.1 hst.2 hok0.1 hok0.2 (hcst r0 (by simp))
    have hfold : mergeFoldThread st (r0 :: rest) =
        mergeFoldThread (mergeItemsThread st r0).1 rest := rfl
    have hlc : ∀ r ∈ rest, lcompat (mergeItemsThread st r0).1 r := by
      intro r hr k v w hv hw
      rw [hkeq k] at hv
      rcases ocomb_some_shape _ _ _ hv with ⟨w1, hw1, hsh1⟩ | ⟨_, hb⟩
      · rw [hsh1]
        exact hcst r (by simp [hr]) k w1 w hw1 hw
      · exact hpair r0 (by simp) r (by simp [hr]) k v w hb hw
    obtain ⟨ihk, ihok⟩ := ih (mergeItemsThread st r0).1 ⟨hn1, hv1⟩
      (fun r hr => hok r (by simp [hr])) hlc
      (fun r1 h1 r2 h2 => hpair r1 (by simp [h1]) r2 (by simp [h2]))
    rw [hfold]
    refine ⟨?_, ihok⟩
    intro k
    rw [ihk k, hkeq k]
    rfl

/-- The two record-level merge walks are one function, like their steps. -/
theorem mergeItems_levels_agree : mergeItemsFinal = mergeItemsThread := by
  funext t items
  induction items generalizing t with
  | nil => rfl
  | cons p rest ih =>
    obtain ⟨k, v⟩ := p
    show (match mergeKVFinal t k v with
          | (t1, none) => mergeItemsFinal t1 rest
          | (t1, some e) => (t1, some e)) =
        (match mergeKVThread t k v with
          | (t1, none) => mergeItemsThread t1 rest
          | (t1, some e) => (t1, some e))
    rw [← mergeKV_levels_agree]
    rcases mergeKVThread t k v with ⟨t1, e1⟩
    cases e1 with
    | none => exact ih t1
    | some e => rfl

/-- The final fold of well-formed, pairwise-compatible worker records
raises nothing, computes `olookfold` at every key, and yields a well-formed
aggregate. -/
theorem mergeFoldFinal_ok (rs : List Record) :
    ∀ st : Record, recOK st → (∀ r ∈ rs, recOK r) →
      (∀ r ∈ rs, lcompat st r) → (∀ r1 ∈ rs, ∀ r2 ∈ rs, lcompat r1 r2) →
      (mergeFoldFinal st rs).2 = none ∧
        (∀ k, rlookup k (mergeFoldFinal st rs).1 =
          olookfold k (rlookup k st) rs) ∧
        recOK (mergeFoldFinal st rs).1 := by
  induction rs with
  | nil =>
    intro st hst _ _ _
    exact ⟨rfl, fun k => rfl, hst⟩
  | cons r0 rest ih =>
    intro st hst hok hcst hpair
    have hok0 : recOK r0 := hok r0 (by simp)
    obtain ⟨he, hkeq, hn1, hv1⟩ :=
      mergeItemsThread_ok r0 st hst.1 hst.2 hok0.1 hok0.2 (hcst r0 (by simp))
    rcases hmk : mergeItemsThread st r0 with ⟨t1, e1⟩
    rw [hmk] at he hkeq hn1 hv1
    have he1 : e1 = none := he
    subst he1
    have hred : mergeFoldFinal st (r0 :: rest) = mergeFoldFinal t1 rest := by
      show (match mergeItemsFinal st r0 with
            | (st1, none) => mergeFoldFinal st1 rest
            | (st1, some e) => (st1, some e)) = mergeFoldFinal t1 rest
      rw [mergeItems_levels_agree, hmk]
    have hlc : ∀ r ∈ rest, lcompat t1 r := by
      intro r hr k v w hv hw
      rw [hkeq k] at hv
      rcases ocomb_some_shape _ _ _ hv with ⟨w1, hw1, hsh1⟩ | ⟨_, hb⟩
      · rw [hsh1]
        exact hcst r (by simp [hr]) k w1 w hw1 hw
      · exact hpair r0 (by simp) r (by simp [hr]) k v w hb hw
    obtain ⟨ihe, ihk, ihok⟩ := ih t1 ⟨hn1, hv1⟩
      (fun r hr => hok r (by simp [hr])) hlc
      (fun r1 h1 r2 h2 => hpair r1 (by simp [h1]) r2 (by simp [h2]))
    rw [hred]
    refine ⟨ihe, ?_, ihok⟩
    intro k
    rw [ihk k, hkeq k]
    rfl

/-!
## Canonical per-shape descriptions of the fold
-/

/-- Projection of an optional value to an optional integer counter. -/
def iproj : Option RVal → Option Int
  | some (.intV n) => some n
  | _ => none

/-- Projection of an optional value to a frequency-table lookup. -/
def dproj (o : Option RVal) (sk : Key) : Option Int :=
  match o with
  | some (.dictV d) => rlookup sk d
  | _ => none

/-- `combineInt` ignores an absent right operand. -/
theorem combineInt_none_right (a : Option Int) : combineInt a none = a := by
  cases a <;> rfl

/-- `combineInt` is commutative. -/
theorem combineInt_comm (a b : Option Int) : combineInt a b = combineInt b a := by
  cases a <;> cases b <;> simp [combineInt, Int.add_comm]

/-- `combineInt` is associative. -/
theorem combineInt_assoc (a b c : Option Int) :
    combineInt (combineInt a b) c = combineInt a (combineInt b c) := by
  cases a <;> cases b <;> cases c <;> simp [combineInt, Int.add_assoc]

/-- Pull the accumulator out of a `combineInt` fold. -/
theorem foldl_combineInt_start (l : List (Option Int)) :
    ∀ a, List.foldl combineInt a l = combineInt a (List.foldl combineInt none l) := by
  induction l with
  | nil =>
    intro a
    rw [List.foldl_nil, List.foldl_nil, combineInt_none_right]
  | cons x l ih =>
    intro a
    rw [List.foldl_cons, List.foldl_cons, ih (combineInt a x), ih (combineInt none x),
      combineInt_assoc]
    rfl

/-- Grouped `combineInt` folds flatten. -/
theorem foldl_combineInt_flatten (ls : List (List (Option Int))) :
    List.foldl combineInt none (ls.map (fun l => List.foldl combineInt none l)) =
      List.foldl combineInt none ls.flatten := by
  induction ls with
  | nil => rfl
  | cons g rest ih =>
    rw [List.map_cons, List.foldl_cons, List.flatten_cons, List.foldl_append,
      foldl_combineInt_start, foldl_combineInt_start rest.flatten, ih]
    rfl

/-- A `combineInt` fold is invariant under permutation. -/
theorem foldl_combineInt_perm (l1 l2 : List (Option Int)) (h : l1.Perm l2) :
    List.foldl combineInt none l1 = List.foldl combineInt none l2 := by
  induction h with
  | nil => rfl
  | cons x h ih =>
    rw [List.foldl_cons, List.foldl_cons, foldl_combineInt_start,
      foldl_combineInt_start _ (combineInt none x), ih]
  | swap x y l =>
    have h1 : combineInt (combineInt none y) x = combineInt (combineInt none x) y := by
      rw [combineInt_assoc, combineInt_assoc, combineInt_comm y x]
    rw [List.foldl_cons, List.foldl_cons, List.foldl_cons, List.foldl_cons, h1]
  | trans h1 h2 ih1 ih2 => rw [ih1, ih2]

/-- Values of integer shape are integers. -/
theorem shape_int (v : RVal) (h : shapeOf v = .sInt) : ∃ n, v = .intV n := by
  cases v with
  | intV n => exact ⟨n, rfl⟩
  | setV s => simp [shapeOf] at h
  | dictV d => simp [shapeOf] at h
  | listV l => simp [shapeOf] at h

/-- Values of set shape are sets. -/
theorem shape_set (v : RVal) (h : shapeOf v = .sSet) : ∃ s, v = .setV s := by
  cases v with
  | intV n => simp [shapeOf] at h
  | setV s => exact ⟨s, rfl⟩
  | dictV d => simp [shapeOf] at h
  | listV l => simp [shapeOf] at h

/-- Values of dict shape are dicts. -/
theorem shape_dict (v : RVal) (h : shapeOf v = .sDict) : ∃ d, v = .dictV d := by
  cases v with
  | intV n => simp [shapeOf] at h
  | setV s => simp [shapeOf] at h
  | dictV d => exact ⟨d, rfl⟩
  | listV l => simp [shapeOf] at h

/-- A key absent everywhere folds to nothing. -/
theorem olookfold_none (k : Key) (rs : List Record)
    (h : ∀ r ∈ rs, rlookup k r = none) : olookfold k none rs = none := by
  induction rs with
  | nil => rfl
  | cons r0 rest ih =>
    have h0 : rlookup k r0 = none := h r0 (by simp)
    have hstep : olookfold k none (r0 :: rest) = olookfold k (ocomb none (rlookup k r0)) rest := rfl
    rw [hstep, h0]
    exact ih (fun r hr => h r (by simp [hr]))

/-- Combining integer-shaped options is `combineInt` under the injection. -/
theorem ocomb_int (a : Option Int) (n : Int) :
    ocomb (a.map RVal.intV) (some (.intV n)) = (combineInt a (some n)).map RVal.intV := by
  cases a <;> rfl

/-- An integer-shaped fold computes the `combineInt` fold of the projected
counters. -/
theorem olookfold_int (k : Key) (rs : List Record) :
    ∀ a : Option Int,
      (∀ r ∈ rs, ∀ v, rlookup k r = some v → shapeOf v = .sInt) →
      olookfold k (a.map RVal.intV) rs =
        (List.foldl combineInt a (rs.map (fun r => iproj (rlookup k r)))).map RVal.intV := by
  induction rs with
  | nil => intro a _; rfl
  | cons r0 rest ih =>
    intro a hsh
    have hstep : olookfold k (a.map RVal.intV) (r0 :: rest) =
        olookfold k (ocomb (a.map RVal.intV) (rlookup k r0)) rest := rfl
    have hrest : ∀ r ∈ rest, ∀ v, rlookup k r = some v → shapeOf v = .sInt :=
      fun r hr => hsh r (by simp [hr])
    rw [hstep, List.map_cons, List.foldl_cons]
    cases h0 : rlookup k r0 with
    | none =>
      rw [ocomb_none_right]
      have : iproj (none : Option RVal) = none := rfl
      rw [this, combineInt_none_right]
      exact ih a hrest
    | some v =>
      obtain ⟨n, hn⟩ := shape_int v (hsh r0 (by simp) v h0)
      subst hn
      rw [ocomb_int, ih (combineInt a (some n)) hrest]
      rfl

/-- A set-shaped fold starting from a set is a set whose membership is the
union of the accumulator and all contributions. -/
theorem olookfold_set (k : Key) (rs : List Record) :
    ∀ a : List Key,
      (∀ r ∈ rs, ∀ v, rlookup k r = some v → shapeOf v = .sSet) →
      ∃ u, olookfold k (some (.setV a)) rs = some (.setV u) ∧
        ∀ w, (w ∈ u ↔ w ∈ a ∨ ∃ r, r ∈ rs ∧ ∃ s, rlookup k r = some (.setV s) ∧ w ∈ s) := by
  induction rs with
  | nil =>
    intro a _
    refine ⟨a, rfl, ?_⟩
    intro w
    constructor
    · exact fun hw => Or.inl hw
    · rintro (hw | ⟨r, hr, _⟩)
      · exact hw
      · exact absurd hr (List.not_mem_nil r)
  | cons r0 rest ih =>
    intro a hsh
    have hstep : olookfold k (some (.setV a)) (r0 :: rest) =
        olookfold k (ocomb (some (.setV a)) (rlookup k r0)) rest := rfl
    have hrest : ∀ r ∈ rest, ∀ v, rlookup k r = some v → shapeOf v = .sSet :=
      fun r hr => hsh r (by simp [hr])
    cases h0 : rlookup k r0 with
    | none =>
      rw [hstep, h0, ocomb_none_right]
      obtain ⟨u, hu, hmem⟩ := ih a hrest
      refine ⟨u, hu, ?_⟩
      intro w
      rw [hmem w]
      constructor
      · rintro (hw | ⟨r, hr, s, hs, hws⟩)
        · exact Or.inl hw
        · exact Or.inr ⟨r, by simp [hr], s, hs, hws⟩
      · rintro (hw | ⟨r, hr, s, hs, hws⟩)
        · exact Or.inl hw
        · rcases List.mem_cons.mp hr with hr0 | hr1
          · subst hr0
            rw [h0] at hs
            exact absurd hs (by simp)
          · exact Or.inr ⟨r, hr1, s, hs, hws⟩
    | some v =>
      obtain ⟨s0, hs0⟩ := shape_set v (hsh r0 (by simp) v h0)
      subst hs0
      rw [hstep, h0]
      have hoc : ocomb (some (.setV a)) (some (.setV s0)) =
          some (.setV (setUnion a s0)) := rfl
      rw [hoc]
      obtain ⟨u, hu, hmem⟩ := ih (setUnion a s0) hrest
      refine ⟨u, hu, ?_⟩
      intro w
      rw [hmem w, mem_setUnion]
      constructor
      · rintro ((hw | hw) | ⟨r, hr, s, hs, hws⟩)
        · exact Or.inl hw
        · exact Or.inr ⟨r0, by simp, s0, h0, hw⟩
        · exact Or.inr ⟨r, by simp [hr], s, hs, hws⟩
      · rintro (hw | ⟨r, hr, s, hs, hws⟩)
        · exact Or.inl (Or.inl hw)
        · rcases List.mem_cons.mp hr with hr0 | hr1
          · subst hr0
            rw [h0] at hs
            injection hs with hs
            injection hs with hs
            subst hs
            exact Or.inl (Or.inr hws)
          · exact Or.inr ⟨r, hr1, s, hs, hws⟩

/-- A set-shaped fold from an empty accumulator: absent everywhere, or a set
collecting exactly the contributed members. -/
theorem olookfold_set_entry (k : Key) (rs : List Record)
    (hsh : ∀ r ∈ rs, ∀ v, rlookup k r = some v → shapeOf v = .sSet) :
    (olookfold k none rs = none ∧ ∀ r ∈ rs, rlookup k r = none) ∨
      (∃ u, olookfold k none rs = some (.setV u) ∧
        ∀ w, (w ∈ u ↔ ∃ r, r ∈ rs ∧ ∃ s, rlookup k r = some (.setV s) ∧ w ∈ s)) := by
  induction rs with
  | nil => exact Or.inl ⟨rfl, by intro r hr; exact absurd hr (List.not_mem_nil r)⟩
  | cons r0 rest ih =>
    have hrest : ∀ r ∈ rest, ∀ v, rlookup k r = some v → shapeOf v = .sSet :=
      fun r hr => hsh r (by simp [hr])
    have hstep : olookfold k none (r0 :: rest) =
        olookfold k (ocomb none (rlookup k r0)) rest := rfl
    cases h0 : rlookup k r0 with
    | none =>
      rw [hstep, h0]
      rcases ih hrest with ⟨hnone, hall⟩ | ⟨u, hu, hmem⟩
      · refine Or.inl ⟨hnone, ?_⟩
        intro r hr
        rcases List.mem_cons.mp hr with hr0 | hr1
        · rw [hr0]; exact h0
        · exact hall r hr1
      · refine Or.inr ⟨u, hu, ?_⟩
        intro w
        rw [hmem w]
        constructor
        · rintro ⟨r, hr, s, hs, hws⟩
          exact ⟨r, by simp [hr], s, hs, hws⟩
        · rintro ⟨r, hr, s, hs, hws⟩
          rcases List.mem_cons.mp hr with hr0 | hr1
          · subst hr0
            rw [h0] at hs
            exact absurd hs (by simp)
          · exact ⟨r, hr1, s, hs, hws⟩
    | some v =>
      obtain ⟨s0, hs0⟩ := shape_set v (hsh r0 (by simp) v h0)
      subst hs0
      rw [hstep, h0]
      have hoc : ocomb none (some (.setV s0)) = some (.setV s0) := rfl
      rw [hoc]
      obtain ⟨u, hu, hmem⟩ := olookfold_set k rest s0 hrest
      refine Or.inr ⟨u, hu, ?_⟩
      intro w
      rw [hmem w]
      constructor
      · rintro (hw | ⟨r, hr, s, hs, hws⟩)
        · exact ⟨r0, by simp, s0, h0, hw⟩
        · exact ⟨r, by simp [hr], s, hs, hws⟩
      · rintro ⟨r, hr, s, hs, hws⟩
        rcases List.mem_cons.mp hr with hr0 | hr1
        · subst hr0
          rw [h0] at hs
          injection hs with hs
          injection hs with hs
          subst hs
          exact Or.inl hws
        · exact Or.inr ⟨r, hr1, s, hs, hws⟩

/-- The dict keys of a well-formed record's frequency table are distinct. -/
theorem recOK_dict_nodup (r : Record) (hok : recOK r) (k : Key)
    (d : List (Key × Int)) (h : rlookup k r = some (.dictV d)) :
    (d.map Prod.fst).Nodup := by
  have := hok.2 (k, .dictV d) (rlookup_mem k r _ h)
  simpa [valOK] using this

/-- A dict-shaped fold starting from a dict computes `combineInt` folds of
the projected sub-key counters. -/
theorem olookfold_dict (k : Key) (rs : List Record) :
    ∀ a : List (Key × Int),
      (∀ r ∈ rs, ∀ v, rlookup k r = some v → shapeOf v = .sDict) →
      (∀ r ∈ rs, recOK r) →
      ∃ D, olookfold k (some (.dictV a)) rs = some (.dictV D) ∧
        ∀ sk, rlookup sk D =
          List.foldl combineInt (rlookup sk a)
            (rs.map (fun r => dproj (rlookup k r) sk)) := by
  induction rs with
  | nil =>
    intro a _ _
    exact ⟨a, rfl, fun sk => rfl⟩
  | cons r0 rest ih =>
    intro a hsh hok
    have hrest : ∀ r ∈ rest, ∀ v, rlookup k r = some v → shapeOf v = .sDict :=
      fun r hr => hsh r (by simp [hr])
    have hokrest : ∀ r ∈ rest, recOK r := fun r hr => hok r (by simp [hr])
    have hstep : olookfold k (some (.dictV a)) (r0 :: rest) =
        olookfold k (ocomb (some (.dictV a)) (rlookup k r0)) rest := rfl
    cases h0 : rlookup k r0 with
    | none =>
      rw [hstep, h0, ocomb_none_right]
      obtain ⟨D, hD, hDk⟩ := ih a hrest hokrest
      refine ⟨D, hD, ?_⟩
      intro sk
      rw [hDk sk, List.map_cons, List.foldl_cons, h0]
      have : dproj (none : Option RVal) sk = none := rfl
      rw [this, combineInt_none_right]
    | some v =>
      obtain ⟨d0, hd0⟩ := shape_dict v (hsh r0 (by simp) v h0)
      subst hd0
      have hnd0 : (d0.map Prod.fst).Nodup := recOK_dict_nodup r0 (hok r0 (by simp)) k d0 h0
      rw [hstep, h0]
      have hoc : ocomb (some (.dictV a)) (some (.dictV d0)) =
          some (.dictV (dictMerge a d0)) := rfl
      rw [hoc]
      obtain ⟨D, hD, hDk⟩ := ih (dictMerge a d0) hrest hokrest
      refine ⟨D, hD, ?_⟩
      intro sk
      rw [hDk sk, List.map_cons, List.foldl_cons, h0]
      have hpr : dproj (some (.dictV d0)) sk = rlookup sk d0 := rfl
      rw [hpr, rlookup_dictMerge a d0 hnd0 sk]

/-- A dict-shaped fold from an empty accumulator: absent everywhere, or a
dict computing `combineInt` folds of the contributed sub-key counters. -/
theorem olookfold_dict_entry (k : Key) (rs : List Record)
    (hsh : ∀ r ∈ rs, ∀ v, rlookup k r = some v → shapeOf v = .sDict)
    (hok : ∀ r ∈ rs, recOK r) :
    (olookfold k none rs = none ∧ ∀ r ∈ rs, rlookup k r = none) ∨
      (∃ D, olookfold k none rs = some (.dictV D) ∧
        ∀ sk, rlookup sk D =
          List.foldl combineInt none (rs.map (fun r => dproj (rlookup k r) sk))) := by
  induction rs with
  | nil => exact Or.inl ⟨rfl, by intro r hr; exact absurd hr (List.not_mem_nil r)⟩
  | cons r0 rest ih =>
    have hrest : ∀ r ∈ rest, ∀ v, rlookup k r = some v → shapeOf v = .sDict :=
      fun r hr => hsh r (by simp [hr])
    have hokrest : ∀ r ∈ rest, recOK r := fun r hr => hok r (by simp [hr])
    have hstep : olookfold k none (r0 :: rest) =
        olookfold k (ocomb none (rlookup k r0)) rest := rfl
    cases h0 : rlookup k r0 with
    | none =>
      rw [hstep, h0]
      rcases ih hrest hokrest with ⟨hnone, hall⟩ | ⟨D, hD, hDk⟩
      · refine Or.inl ⟨hnone, ?_⟩
        intro r hr
        rcases List.mem_cons.mp hr with hr0 | hr1
        · rw [hr0]; exact h0
        · exact hall r hr1
      · refine Or.inr ⟨D, hD, ?_⟩
        intro sk
        rw [hDk sk, List.map_cons, List.foldl_cons, h0]
        rfl
    | some v =>
      obtain ⟨d0, hd0⟩ := shape_dict v (hsh r0 (by simp) v h0)
      subst hd0
      rw [hstep, h0]
      have hoc : ocomb none (some (.dictV d0)) = some (.dictV d0) := rfl
      rw [hoc]
      obtain ⟨D, hD, hDk⟩ := olookfold_dict k rest d0 hrest hokrest
      refine Or.inr ⟨D, hD, ?_⟩
      intro sk
      rw [hDk sk, List.map_cons, List.foldl_cons, h0]
      have hpr : dproj (some (.dictV d0)) sk = rlookup sk d0 := rfl
      rw [hpr]
      have : combineInt none (rlookup sk d0) = rlookup sk d0 := rfl
      rw [this]

/-- A fold that ends absent had an absent accumulator and absent records. -/
theorem olookfold_eq_none (k : Key) (rs : List Record) :
    ∀ a, olookfold k a rs = none → a = none ∧ ∀ r ∈ rs, rlookup k r = none := by
  induction rs with
  | nil =>
    intro a h
    exact ⟨h, by intro r hr; exact absurd hr (List.not_mem_nil r)⟩
  | cons r0 rest ih =>
    intro a h
    have hstep : olookfold k a (r0 :: rest) =
        olookfold k (ocomb a (rlookup k r0)) rest := rfl
    rw [hstep] at h
    obtain ⟨hoc, hall⟩ := ih _ h
    have hab : a = none ∧ rlookup k r0 = none := by
      cases a with
      | none =>
        cases hb : rlookup k r0 with
        | none => exact ⟨rfl, rfl⟩
        | some v => rw [hb] at hoc; exact absurd hoc (by simp [ocomb])
      | some x =>
        cases hb : rlookup k r0 with
        | none => rw [hb, ocomb_none_right] at hoc; exact absurd hoc (by simp)
        | some v => rw [hb] at hoc; exact absurd hoc (by simp [ocomb])
    refine ⟨hab.1, ?_⟩
    intro r hr
    rcases List.mem_cons.mp hr with hr0 | hr1
    · rw [hr0]; exact hab.2
    · exact hall r hr1

/-- A `combineInt` fold of absent entries is absent. -/
theorem foldl_combineInt_nones (l : List (Option Int)) (h : ∀ x ∈ l, x = none) :
    List.foldl combineInt none l = none := by
  induction l with
  | nil => rfl
  | cons x rest ih =>
    rw [List.foldl_cons, h x (by simp)]
    exact ih (fun y hy => h y (by simp [hy]))

/-- Unprojecting an injected counter. -/
theorem iproj_map_intV (o : Option Int) : iproj (o.map RVal.intV) = o := by
  cases o <;> rfl

/-- The two-level aggregate: every worker record folds its group, is
well-formed, and the aggregate folds the worker records — with no error
raised by the final merge. -/
theorem aggregate_spec (gs : List (List Record))
    (hok : ∀ r ∈ gs.flatten, recOK r) (hcomp : pairCompat gs.flatten) :
    (∀ g ∈ gs, ∀ k, rlookup k (mergeFoldThread [] g) = olookfold k none g) ∧
      (∀ g ∈ gs, recOK (mergeFoldThread [] g)) ∧
      (∀ k, rlookup k (aggregateGrouped gs) =
        olookfold k none (gs.map (fun g => mergeFoldThread [] g))) ∧
      (mergeFoldFinal [] (gs.map (fun g => mergeFoldThread [] g))).2 = none := by
  have hmemg : ∀ g ∈ gs, ∀ r ∈ g, r ∈ gs.flatten :=
    fun g hg r hr => List.mem_flatten.mpr ⟨g, hg, hr⟩
  have hworker : ∀ g ∈ gs,
      (∀ k, rlookup k (mergeFoldThread [] g) = olookfold k none g) ∧
        recOK (mergeFoldThread [] g) := by
    intro g hg
    obtain ⟨hkeq, hokw⟩ := mergeFoldThread_ok g [] recOK_nil
      (fun r hr => hok r (hmemg g hg r hr))
      (fun r _ => lcompat_nil_left r)
      (fun r1 h1 r2 h2 => lcompat_of_rCompat r1 r2
        (hcomp r1 (hmemg g hg r1 h1) r2 (hmemg g hg r2 h2)))
    exact ⟨fun k => hkeq k, hokw⟩
  have hwshape : ∀ g ∈ gs, ∀ k v, rlookup k (mergeFoldThread [] g) = some v →
      ∃ r ∈ gs.flatten, ∃ w, rlookup k r = some w ∧ shapeOf v = shapeOf w := by
    intro g hg k v hv
    rw [(hworker g hg).1 k] at hv
    rcases olookfold_some_shape k g none v hv with ⟨w, hw, _⟩ | ⟨r, hr, w, hw, hsh⟩
    · exact absurd hw (by simp)
    · exact ⟨r, hmemg g hg r hr, w, hw, hsh⟩
  have hwcomp : ∀ g1 ∈ gs, ∀ g2 ∈ gs,
      lcompat (mergeFoldThread [] g1) (mergeFoldThread [] g2) := by
    intro g1 h1 g2 h2 k v w hv hw
    obtain ⟨r1, hr1, w1, hw1, hsh1⟩ := hwshape g1 h1 k v hv
    obtain ⟨r2, hr2, w2, hw2, hsh2⟩ := hwshape g2 h2 k w hw
    rw [hsh1, hsh2]
    exact lcompat_of_rCompat r1 r2 (hcomp r1 hr1 r2 hr2) k w1 w2 hw1 hw2
  obtain ⟨hfe, hfk, _⟩ := mergeFoldFinal_ok (gs.map (fun g => mergeFoldThread [] g)) []
    recOK_nil
    (by
      intro w hw
      obtain ⟨g, hg, hgw⟩ := List.mem_map.mp hw
      rw [← hgw]
      exact (hworker g hg).2)
    (fun w _ => lcompat_nil_left w)
    (by
      intro w1 h1 w2 h2
      obtain ⟨g1, hg1, hw1⟩ := List.mem_map.mp h1
      obtain ⟨g2, hg2, hw2⟩ := List.mem_map.mp h2
      rw [← hw1, ← hw2]
      exact hwcomp g1 hg1 g2 hg2)
  exact ⟨fun g hg => (hworker g hg).1, fun g hg => (hworker g hg).2,
    fun k => hfk k, hfe⟩

/-- A key absent from every chunk record is absent from the aggregate. -/
theorem aggregate_none (gs : List (List Record))
    (hok : ∀ r ∈ gs.flatten, recOK r) (hcomp : pairCompat gs.flatten) (k : Key)
    (hnone : ∀ r ∈ gs.flatten, rlookup k r = none) :
    rlookup k (aggregateGrouped gs) = none := by
  obtain ⟨hwk, _, hak, _⟩ := aggregate_spec gs hok hcomp
  rw [hak k]
  apply olookfold_none
  intro w hw
  obtain ⟨g, hg, hgw⟩ := List.mem_map.mp hw
  rw [← hgw, hwk g hg k]
  apply olookfold_none
  intro r hr
  exact hnone r (List.mem_flatten.mpr ⟨g, hg, hr⟩)

/-- An integer-shaped key aggregates to the `combineInt` fold of all chunk
records' counters, in chunk order. -/
theorem aggregate_int (gs : List (List Record))
    (hok : ∀ r ∈ gs.flatten, recOK r) (hcomp : pairCompat gs.flatten) (k : Key)
    (hsh : ∀ r ∈ gs.flatten, ∀ v, rlookup k r = some v → shapeOf v = .sInt) :
    rlookup k (aggregateGrouped gs) =
      (List.foldl combineInt none
        (gs.flatten.map (fun r => iproj (rlookup k r)))).map RVal.intV := by
  obtain ⟨hwk, _, hak, _⟩ := aggregate_spec gs hok hcomp
  have hgsh : ∀ g ∈ gs, ∀ r ∈ g, ∀ v, rlookup k r = some v → shapeOf v = .sInt :=
    fun g hg r hr => hsh r (List.mem_flatten.mpr ⟨g, hg, hr⟩)
  have hwint : ∀ g ∈ gs, rlookup k (mergeFoldThread [] g) =
      (List.foldl combineInt none (g.map (fun r => iproj (rlookup k r)))).map RVal.intV := by
    intro g hg
    rw [hwk g hg k]
    have := olookfold_int k g none (hgsh g hg)
    simpa using this
  have hwsh : ∀ w ∈ gs.map (fun g => mergeFoldThread [] g), ∀ v,
      rlookup k w = some v → shapeOf v = .sInt := by
    intro w hw v hv
    obtain ⟨g, hg, hgw⟩ := List.mem_map.mp hw
    rw [← hgw, hwint g hg] at hv
    cases ho : List.foldl combineInt none (g.map (fun r => iproj (rlookup k r))) with
    | none => rw [ho] at hv; exact absurd hv (by simp)
    | some n =>
      rw [ho] at hv
      have hm : (some n).map RVal.intV = some (.intV n) := rfl
      rw [hm] at hv
      injection hv with hv
      rw [← hv]
      rfl
  rw [hak k]
  have h1 := olookfold_int k (gs.map (fun g => mergeFoldThread [] g)) none hwsh
  have hn : (none : Option Int).map RVal.intV = none := rfl
  rw [hn] at h1
  rw [h1]
  congr 1
  have h2 : (gs.map (fun g => mergeFoldThread [] g)).map
      (fun w => iproj (rlookup k w)) =
      gs.map (fun g => List.foldl combineInt none
        (g.map (fun r => iproj (rlookup k r)))) := by
    rw [List.map_map]
    apply List.map_congr_left
    intro g hg
    show iproj (rlookup k (mergeFoldThread [] g)) = _
    rw [hwint g hg, iproj_map_intV]
  rw [h2]
  have h3 : gs.map (fun g => List.foldl combineInt none
      (g.map (fun r => iproj (rlookup k r)))) =
      (gs.map (fun g => g.map (fun r => iproj (rlookup k r)))).map
        (fun l => List.foldl combineInt none l) := by
    rw [List.map_map]
    rfl
  rw [h3, foldl_combineInt_flatten]
  congr 1
  rw [← List.map_flatten]

/-- A set-shaped key aggregates to nothing (when absent everywhere) or to a
set whose membership is the union of all chunk records' contributions. -/
theorem aggregate_set (gs : List (List Record))
    (hok : ∀ r ∈ gs.flatten, recOK r) (hcomp : pairCompat gs.flatten) (k : Key)
    (hsh : ∀ r ∈ gs.flatten, ∀ v, rlookup k r = some v → shapeOf v = .sSet) :
    (rlookup k (aggregateGrouped gs) = none ∧ ∀ r ∈ gs.flatten, rlookup k r = none) ∨
      (∃ u, rlookup k (aggregateGrouped gs) = some (.setV u) ∧
        ∀ w, (w ∈ u ↔ ∃ r, r ∈ gs.flatten ∧ ∃ s,
          rlookup k r = some (.setV s) ∧ w ∈ s)) := by
  obtain ⟨hwk, hwok, hak, _⟩ := aggregate_spec gs hok hcomp
  have hgsh : ∀ g ∈ gs, ∀ r ∈ g, ∀ v, rlookup k r = some v → shapeOf v = .sSet :=
    fun g hg r hr => hsh r (List.mem_flatten.mpr ⟨g, hg, hr⟩)
  have hwsh : ∀ w ∈ gs.map (fun g => mergeFoldThread [] g), ∀ v,
      rlookup k w = some v → shapeOf v = .sSet := by
    intro w hw v hv
    obtain ⟨g, hg, hgw⟩ := List.mem_map.mp hw
    rw [← hgw, hwk g hg k] at hv
    rcases olookfold_some_shape k g none v hv with ⟨w1, hw1, _⟩ | ⟨r, hr, w1, hw1, hsh1⟩
    · exact absurd hw1 (by simp)
    · rw [hsh1]
      exact hsh r (List.mem_flatten.mpr ⟨g, hg, hr⟩) w1 hw1
  rcases olookfold_set_entry k (gs.map (fun g => mergeFoldThread [] g)) hwsh with
    ⟨hn, hall⟩ | ⟨u, hu, hmem⟩
  · refine Or.inl ⟨by rw [hak k]; exact hn, ?_⟩
    intro r hr
    obtain ⟨g, hg, hrg⟩ := List.mem_flatten.mp hr
    have hwnone : rlookup k (mergeFoldThread [] g) = none :=
      hall (mergeFoldThread [] g) (List.mem_map.mpr ⟨g, hg, rfl⟩)
    rw [hwk g hg k] at hwnone
    exact (olookfold_eq_none k g none hwnone).2 r hrg
  · refine Or.inr ⟨u, by rw [hak k]; exact hu, ?_⟩
    intro w
    rw [hmem w]
    constructor
    · rintro ⟨wk, hwkmem, s, hs, hws⟩
      obtain ⟨g, hg, hgw⟩ := List.mem_map.mp hwkmem
      rw [← hgw, hwk g hg k] at hs
      rcases olookfold_set_entry k g (hgsh g hg) with ⟨hn2, _⟩ | ⟨u2, hu2, hmem2⟩
      · rw [hn2] at hs
        exact absurd hs (by simp)
      · rw [hu2] at hs
        injection hs with hs
        injection hs with hs
        subst hs
        obtain ⟨r, hr, s2, hs2, hws2⟩ := (hmem2 w).mp hws
        exact ⟨r, List.mem_flatten.mpr ⟨g, hg, hr⟩, s2, hs2, hws2⟩
    · rintro ⟨r, hr, s, hs, hws⟩
      obtain ⟨g, hg, hrg⟩ := List.mem_flatten.mp hr
      rcases olookfold_set_entry k g (hgsh g hg) with ⟨_, hall2⟩ | ⟨u2, hu2, hmem2⟩
      · rw [hall2 r hrg] at hs
        exact absurd hs (by simp)
      · refine ⟨mergeFoldThread [] g, List.mem_map.mpr ⟨g, hg, rfl⟩, u2, ?_, ?_⟩
        · rw [hwk g hg k]
          exact hu2
        · exact (hmem2 w).mpr ⟨r, hrg, s, hs, hws⟩

/-- A dict-shaped key aggregates to nothing (when absent everywhere) or to a
frequency table whose every sub-key carries the `combineInt` fold of all
chunk records' counters for it. -/
theorem aggregate_dict (gs : List (List Record))
    (hok : ∀ r ∈ gs.flatten, recOK r) (hcomp : pairCompat gs.flatten) (k : Key)
    (hsh : ∀ r ∈ gs.flatten, ∀ v, rlookup k r = some v → shapeOf v = .sDict) :
    (rlookup k (aggregateGrouped gs) = none ∧ ∀ r ∈ gs.flatten, rlookup k r = none) ∨
      (∃ D, rlookup k (aggregateGrouped gs) = some (.dictV D) ∧
        ∀ sk, rlookup sk D = List.foldl combineInt none
          (gs.flatten.map (fun r => dproj (rlookup k r) sk))) := by
  obtain ⟨hwk, hwok, hak, _⟩ := aggregate_spec gs hok hcomp
  have hgsh : ∀ g ∈ gs, ∀ r ∈ g, ∀ v, rlookup k r = some v → shapeOf v = .sDict :=
    fun g hg r hr => hsh r (List.mem_flatten.mpr ⟨g, hg, hr⟩)
  have hgok : ∀ g ∈ gs, ∀ r ∈ g, recOK r :=
    fun g hg r hr => hok r (List.mem_flatten.mpr ⟨g, hg, hr⟩)
  have hwsh : ∀ w ∈ gs.map (fun g => mergeFoldThread [] g), ∀ v,
      rlookup k w = some v → shapeOf v = .sDict := by
    intro w hw v hv
    obtain ⟨g, hg, hgw⟩ := List.mem_map.mp hw
    rw [← hgw, hwk g hg k] at hv
    rcases olookfold_some_shape k g none v hv with ⟨w1, hw1, _⟩ | ⟨r, hr, w1, hw1, hsh1⟩
    · exact absurd hw1 (by simp)
    · rw [hsh1]
      exact hsh r (List.mem_flatten.mpr ⟨g, hg, hr⟩) w1 hw1
  have hwokm : ∀ w ∈ gs.map (fun g => mergeFoldThread [] g), recOK w := by
    intro w hw
    obtain ⟨g, hg, hgw⟩ := List.mem_map.mp hw
    rw [← hgw]
    exact hwok g hg
  rcases olookfold_dict_entry k (gs.map (fun g => mergeFoldThread [] g)) hwsh hwokm
    with ⟨hn, hall⟩ | ⟨D, hD, hDk⟩
  · refine Or.inl ⟨by rw [hak k]; exact hn, ?_⟩
    intro r hr
    obtain ⟨g, hg, hrg⟩ := List.mem_flatten.mp hr
    have hwnone : rlookup k (mergeFoldThread [] g) = none :=
      hall (mergeFoldThread [] g) (List.mem_map.mpr ⟨g, hg, rfl⟩)
    rw [hwk g hg k] at hwnone
    exact (olookfold_eq_none k g none hwnone).2 r hrg
  · refine Or.inr ⟨D, by rw [hak k]; exact hD, ?_⟩
    intro sk
    rw [hDk sk]
    have h2 : (gs.map (fun g => mergeFoldThread [] g)).map
        (fun w => dproj (rlookup k w) sk) =
        gs.map (fun g => List.foldl combineInt none
          (g.map (fun r => dproj (rlookup k r) sk))) := by
      rw [List.map_map]
      apply List.map_congr_left
      intro g hg
      show dproj (rlookup k (mergeFoldThread [] g)) sk = _
      rw [hwk g hg k]
      rcases olookfold_dict_entry k g (hgsh g hg) (hgok g hg) with
        ⟨hn2, hall2⟩ | ⟨D2, hD2, hDk2⟩
      · rw [hn2]
        have hz : dproj (none : Option RVal) sk = none := rfl
        rw [hz]
        symm
        apply foldl_combineInt_nones
        intro x hx
        obtain ⟨r, hr, hrx⟩ := List.mem_map.mp hx
        rw [← hrx, hall2 r hr]
        rfl
      · rw [hD2]
        have hz : dproj (some (.dictV D2)) sk = rlookup sk D2 := rfl
        rw [hz]
        exact hDk2 sk
    rw [h2]
    have h3 : gs.map (fun g => List.foldl combineInt none
        (g.map (fun r => dproj (rlookup k r) sk))) =
        (gs.map (fun g => g.map (fun r => dproj (rlookup k r) sk))).map
          (fun l => List.foldl combineInt none l) := by
      rw [List.map_map]
      rfl
    rw [h3, foldl_combineInt_flatten]
    congr 1
    rw [← List.map_flatten]

/-- `oEquiv` is reflexive. -/
theorem oEquiv_refl (o : Option RVal) : oEquiv o o := by
  cases o with
  | none => trivial
  | some v =>
    cases v with
    | intV n => exact rfl
    | setV s => exact fun w => Iff.rfl
    | dictV d => exact fun sk => rfl
    | listV l => exact rfl

/-- C2: for every fixed collection of per-chunk ResultRecords — values being
integer counters, sets of strings or string-to-integer tables (`recOK`),
shape-consistent across records (`pairCompat`) — merging them under any
permutation and any grouping into workers yields the same final Aggregate:
record equality in Python's sense (`rEquiv`): the same keys, bit-for-bit
equal integer counts, set-equal string sets, and equal frequency tables. -/
theorem merge_order_invariance (gs1 gs2 : List (List Record))
    (hperm : gs1.flatten.Perm gs2.flatten)
    (hok : ∀ r ∈ gs1.flatten, recOK r)
    (hcomp : pairCompat gs1.flatten) :
    rEquiv (aggregateGrouped gs1) (aggregateGrouped gs2) := by
  have hok2 : ∀ r ∈ gs2.flatten, recOK r := fun r hr => hok r (hperm.mem_iff.mpr hr)
  have hcomp2 : pairCompat gs2.flatten := fun r1 h1 r2 h2 =>
    hcomp r1 (hperm.mem_iff.mpr h1) r2 (hperm.mem_iff.mpr h2)
  intro k
  by_cases hall : ∀ r ∈ gs1.flatten, rlookup k r = none
  · have hall2 : ∀ r ∈ gs2.flatten, rlookup k r = none :=
      fun r hr => hall r (hperm.mem_iff.mpr hr)
    rw [aggregate_none gs1 hok hcomp k hall, aggregate_none gs2 hok2 hcomp2 k hall2]
    exact trivial
  · push_neg at hall
    obtain ⟨rstar, hrstar, hvne⟩ := hall
    cases hv : rlookup k rstar with
    | none => exact absurd hv hvne
    | some vstar =>
      have hshape : ∀ r ∈ gs1.flatten, ∀ v, rlookup k r = some v →
          shapeOf v = shapeOf vstar := by
        intro r hr v hvv
        exact hcomp r hr rstar hrstar (k, v) (rlookup_mem k r v hvv)
          (k, vstar) (rlookup_mem k rstar vstar hv) rfl
      have hshape2 : ∀ r ∈ gs2.flatten, ∀ v, rlookup k r = some v →
          shapeOf v = shapeOf vstar :=
        fun r hr => hshape r (hperm.mem_iff.mpr hr)
      have hvok : valOK vstar = true :=
        (hok rstar hrstar).2 (k, vstar) (rlookup_mem k rstar vstar hv)
      have hrstar2 : rstar ∈ gs2.flatten := hperm.mem_iff.mp hrstar
      cases hSH : shapeOf vstar with
      | sList =>
        cases vstar with
        | intV n => simp [shapeOf] at hSH
        | setV s => simp [shapeOf] at hSH
        | dictV d => simp [shapeOf] at hSH
        | listV l => simp [valOK] at hvok
      | sInt =>
        rw [aggregate_int gs1 hok hcomp k (fun r hr v hvv => (hshape r hr v hvv).trans hSH),
          aggregate_int gs2 hok2 hcomp2 k (fun r hr v hvv => (hshape2 r hr v hvv).trans hSH)]
        rw [foldl_combineInt_perm _ _ (hperm.map (fun r => iproj (rlookup k r)))]
        exact oEquiv_refl _
      | sSet =>
        rcases aggregate_set gs1 hok hcomp k
            (fun r hr v hvv => (hshape r hr v hvv).trans hSH) with
          ⟨_, h1all⟩ | ⟨u1, hu1, hm1⟩
        · rw [h1all rstar hrstar] at hv
          exact absurd hv (by simp)
        rcases aggregate_set gs2 hok2 hcomp2 k
            (fun r hr v hvv => (hshape2 r hr v hvv).trans hSH) with
          ⟨_, h2all⟩ | ⟨u2, hu2, hm2⟩
        · rw [h2all rstar hrstar2] at hv
          exact absurd hv (by simp)
        rw [hu1, hu2]
        show ∀ w, w ∈ u1 ↔ w ∈ u2
        intro w
        rw [hm1 w, hm2 w]
        constructor
        · rintro ⟨r, hr, s, hs, hws⟩
          exact ⟨r, hperm.mem_iff.mp hr, s, hs, hws⟩
        · rintro ⟨r, hr, s, hs, hws⟩
          exact ⟨r, hperm.mem_iff.mpr hr, s, hs, hws⟩
      | sDict =>
        rcases aggregate_dict gs1 hok hcomp k
            (fun r hr v hvv => (hshape r hr v hvv).trans hSH) with
          ⟨_, h1all⟩ | ⟨D1, hD1, hk1⟩
        · rw [h1all rstar hrstar] at hv
          exact absurd hv (by simp)
        rcases aggregate_dict gs2 hok2 hcomp2 k
            (fun r hr v hvv => (hshape2 r hr v hvv).trans hSH) with
          ⟨_, h2all⟩ | ⟨D2, hD2, hk2⟩
        · rw [h2all rstar hrstar2] at hv
          exact absurd hv (by simp)
        rw [hD1, hD2]
        show ∀ sk, rlookup sk D1 = rlookup sk D2
        intro sk
        rw [hk1 sk, hk2 sk,
          foldl_combineInt_perm _ _ (hperm.map (fun r => dproj (rlookup k r) sk))]

/-- A concrete chunk record for the C2 witness. -/
def c2r1 : Record :=
  [(("total_words").toList, .intV 1),
   (("word_frequencies").toList, .dictV [(("cat").toList, 1)])]

/-- A second concrete chunk record for the C2 witness. -/
def c2r2 : Record :=
  [(("total_words").toList, .intV 2),
   (("word_frequencies").toList, .dictV [(("cat").toList, 1), (("dog").toList, 3)])]

/-- A third concrete chunk record for the C2 witness. -/
def c2r3 : Record := [(("total_words").toList, .intV 5)]

/-- Witness for C2: three concrete records, regrouped and permuted, with
every hypothesis discharged by computation; the aggregates agree. -/
theorem merge_order_invariance_witness :
    ([[c2r1, c2r2], [c2r3]] : List (List Record)).flatten.Perm
        ([[c2r3, c2r1], [], [c2r2]] : List (List Record)).flatten ∧
      (∀ r ∈ ([[c2r1, c2r2], [c2r3]] : List (List Record)).flatten, recOK r) ∧
      pairCompat ([[c2r1, c2r2], [c2r3]] : List (List Record)).flatten ∧
      rEquiv (aggregateGrouped [[c2r1, c2r2], [c2r3]])
        (aggregateGrouped [[c2r3, c2r1], [], [c2r2]]) :=
  ⟨by decide, by decide, by decide,
    merge_order_invariance [[c2r1, c2r2], [c2r3]] [[c2r3, c2r1], [], [c2r2]]
      (by decide) (by decide) (by decide)⟩
